/-
Verification of the active-learning calculator of TheForce
(`theforce/calculator/active.py`).

The calculator core is embedded shallowly: tensors become lists over an
ordered field `α`, the external collaborators (sparse posterior model,
kernel/descriptor library, reference calculator, autodiff) are abstracted
into an `Ext` record of functions, and every stateful method of
`ActiveCalculator` becomes an explicit state-passing function.  Collective
reductions and model-growth calls are recorded in an event trace so that
statements about "which operations run at which point" can be made.

Floating point numbers are modelled by an arbitrary `LinearOrderedField`;
the square root used in `get_covloss` is a parameter `sqrt : α → α`
instantiated with `Real.sqrt` where the value of beta matters.
-/
import Mathlib

namespace TheForce

variable {α : Type} [LinearOrderedField α]

/-- Dot product of two lists (truncating to the shorter one, as the
pointwise tensor product does for matching shapes). -/
def dot (u v : List α) : α := (List.zipWith (· * ·) u v).sum

/-- `pad_1d` from `active.py`: `torch.cat([a, torch.zeros(b.size(0)-a.size(0))])`. -/
def pad_1d (a b : List α) : List α := a ++ List.replicate (b.length - a.length) 0

/-- `pad_2d` from `active.py`: pad a matrix with zero rows and zero columns up
to the shape of `b`. -/
def pad_2d (a b : List (List α)) : List (List α) :=
  let c := a ++ (List.replicate (b.length - a.length) (List.replicate ((a.headD []).length) 0))
  c.map (fun row => row ++ List.replicate ((b.headD []).length - row.length) 0)

/-- A local chemical environment (`atoms.local(k)`): the focal atom's atomic
number together with its index in the configuration.  Geometry is abstracted
away because the kernel that consumes it is an external collaborator. -/
structure Loc where
  number : ℤ
  index : ℕ
deriving DecidableEq, Repr

/-- A configuration of atoms (`TorchAtoms`): species, differentiable
positions, cell vectors, an optional cell volume (`none` models the
`ValueError` raised by `get_volume` for a non-periodic system) and the
distributed flag. -/
structure Atoms (α : Type) where
  numbers : List ℤ
  xyz : List (List α)
  lll : List (List α)
  volume : Option α
  is_distributed : Bool
deriving DecidableEq, Repr

/-- Number of atoms. -/
def Atoms.natoms (a : Atoms α) : ℕ := a.numbers.length

/-- `atoms.local(k, detach=True)`. -/
def Atoms.locEnv (a : Atoms α) (k : ℕ) : Loc := ⟨a.numbers.getD k 0, k⟩

/-- A labeled configuration in the training set: the snapshot plus the
energy/forces labels attached through a `SinglePointCalculator`. -/
structure Conf (α : Type) where
  atoms : Atoms α
  energy : α
  forces : List (List α)
deriving DecidableEq, Repr

/-- The derived matrices owned by the sparse posterior model: the
Cholesky-like factor `choli`, the uncertainty-projection matrix `Mi` and the
weight vector `mu`. -/
structure MatState (α : Type) where
  choli : List (List α)
  Mi : List (List α)
  mu : List α
deriving DecidableEq, Repr

/-- The sparse posterior model (`PosteriorPotential`), reduced to the state
the calculator core reads: the inducing set `X`, the training set `data`
and the derived matrices. -/
structure Model (α : Type) where
  X : List Loc
  data : List (Conf α)
  mats : MatState α
deriving DecidableEq, Repr

/-- Events recorded by the embedding: collective reductions, model-growth
calls, snapshot labelling, and a shape checkpoint at every place energy /
forces / stress are computed from the covariance cache. -/
inductive Ev (α : Type) where
  /-- a `torch.distributed.all_reduce` call -/
  | allReduce : Ev α
  /-- energy/forces/stress computed from the cache: records the number of
  cache rows, the lengths of all cache rows, and the inducing-set size -/
  | compute (rows : ℕ) (rowLens : List ℕ) (xlen : ℕ) : Ev α
  /-- `model.add_inducing(loc)` (uncertainty path) -/
  | addInducing (loc : Loc) : Ev α
  /-- `model.add_1inducing(loc, thr)` attempted; records the threshold used
  and whether the point was added -/
  | add1 (loc : Loc) (thr : α) (added : Bool) : Ev α
  /-- a full-configuration snapshot was built and submitted; records whether
  it was fake-labeled and the energy label used -/
  | snapshot (fake : Bool) (label : α) : Ev α
  /-- reference calculator invoked -/
  | fetchExact : Ev α
  /-- the labels of the last training configuration were overwritten -/
  | overwrite : Ev α
  /-- `model.make_munu()` -/
  | makeMunu : Ev α
  /-- `initiate_model` ran (bootstrap) -/
  | bootstrap : Ev α
  /-- the selector (`update`) ran this step -/
  | selector : Ev α
deriving DecidableEq, Repr

/-- The external collaborators, bundled: the kernel/descriptor library, the
posterior model's internal linear algebra and sensitivity measure, the
redundancy filter of the training-set add, the reference calculator, and the
autodiff oracle.  All of them live outside the calculator core. -/
structure Ext (α : Type) where
  /-- `model.gp.species`: species known to the kernel -/
  species : List ℤ
  /-- `gp.kern(atoms, loc)`: covariance column between every atom of the
  configuration and one environment -/
  kernCol : Atoms α → Loc → List α
  /-- `gp.kern(x, x)`: self covariance of one environment -/
  selfKern : Loc → α
  /-- the model's energy-sensitivity measure for a candidate environment
  (internal to `add_1inducing`) -/
  delta : Model α → Loc → α
  /-- the redundancy filter of `add_1atoms` (ediff/fdiff test) -/
  acceptData : Model α → Conf α → α → α → Bool
  /-- the model's internal refit of its derived matrices from inducing set
  and training set -/
  refit : List Loc → List (Conf α) → MatState α
  /-- the reference calculator: configuration to (energy, forces) -/
  exact : Atoms α → α × List (List α)
  /-- autodiff oracle: gradient of the weighted cache energy with respect to
  positions (`None` when positions are unused) -/
  rgrad : Atoms α → List α → Option (List (List α))
  /-- autodiff oracle: gradient with respect to the cell vectors -/
  cellgrad : Atoms α → List α → Option (List (List α))

/-- Well-formedness of the kernel for a fixed configuration: a covariance
column has one entry per atom. -/
def Ext.WF (ext : Ext α) (atoms : Atoms α) : Prop :=
  ∀ loc : Loc, (ext.kernCol atoms loc).length = atoms.natoms

/-- Modelled from the spec: `PosteriorPotential.add_inducing`
(`theforce/regression/gppotential.py`, not under `src/`): appends the local
environment to the inducing set and refits the derived matrices. -/
def addInducing (ext : Ext α) (m : Model α) (loc : Loc) : Model α :=
  let X := m.X ++ [loc]
  ⟨X, m.data, ext.refit X m.data⟩

/-- Modelled from the spec: `PosteriorPotential.add_1inducing` (not under
`src/`): if the predicted single-environment energy sensitivity exceeds the
threshold, add the environment as an inducing point, else leave the model
unchanged; returns whether it was added. -/
def add1inducing (ext : Ext α) (m : Model α) (loc : Loc) (thr : α) : Bool × Model α :=
  if ext.delta m loc > thr then (true, addInducing ext m loc) else (false, m)

/-- Modelled from the spec: `PosteriorPotential.add_1atoms` (not under
`src/`): submit a full-configuration snapshot; the model's energy/force
redundancy filter decides whether it is appended to the training set. -/
def add1atoms (ext : Ext α) (m : Model α) (conf : Conf α) (ediff fdiff : α) : Model α :=
  if ext.acceptData m conf ediff fdiff then
    let data := m.data ++ [conf]
    ⟨m.X, data, ext.refit m.X data⟩
  else m

/-- Modelled from the spec: `PosteriorPotential.make_munu` (not under
`src/`): recompute the internal mean/weight matrices from the current
inducing and training sets. -/
def makeMunu (ext : Ext α) (m : Model α) : Model α :=
  ⟨m.X, m.data, ext.refit m.X m.data⟩

/-- Modelled from the spec: `PosteriorPotential.set_data` (not under
`src/`): seed the model with a training set and an inducing set. -/
def setData (ext : Ext α) (data : List (Conf α)) (inducing : List Loc) : Model α :=
  ⟨inducing, data, ext.refit inducing data⟩

/-- Modelled from the spec: `TorchAtoms.first_of_each_atom_type` (not under
`src/`): the index of the first atom of each distinct species, in order of
appearance. -/
def first_of_each_atom_type (numbers : List ℤ) : List ℕ :=
  (List.range numbers.length).filter (fun j => ¬ (numbers.getD j 0) ∈ numbers.take j)

/-- Modelled from the kernel contract: `gp.kern(atoms, X)` (the kernel is an
external collaborator): the full covariance cache, one row per atom, one
column per inducing point, consistent with `kernCol` columns. -/
def kernMatrix (ext : Ext α) (atoms : Atoms α) (X : List Loc) : List (List α) :=
  (List.range atoms.natoms).map (fun i => X.map (fun loc => (ext.kernCol atoms loc).getD i 0))

/-- Append one covariance column to the cache (`torch.cat([cov, x], dim=1)`). -/
def appendCol (cov : List (List α)) (x : List α) : List (List α) :=
  List.zipWith (fun row v => row ++ [v]) cov x

/-- `torch.isclose` with the default tolerances `rtol=1e-5`, `atol=1e-8`. -/
def isclose (x y : α) : Bool := decide (|x - y| ≤ 1 / 100000000 + (1 / 100000) * |y|)

/-- `torch.allclose(v, torch.ones([]))`-style elementwise closeness. -/
def allclose (xs : List α) (y : α) : Bool := xs.all (fun x => isclose x y)

/-- The per-atom alpha vector `cat([gp.kern(x, x) for x in atoms])`. -/
def selfAlpha (ext : Ext α) (atoms : Atoms α) : List α :=
  (List.range atoms.natoms).map (fun k => ext.selfKern (atoms.locEnv k))

/-- `c = ((choli @ cov.T) ** 2).sum(dim=0)`: for each atom (cache row), the
squared norm of its projection through the model's inverse-covariance
factor. -/
def covloss_c (choli cov : List (List α)) : List α :=
  cov.map (fun row => (choli.map (fun cr => dot cr row ^ 2)).sum)

/-- `ActiveCalculator.get_covloss` (active.py lines 246-260): per-atom
covariance-loss score `beta = sqrt(clamp(1 - c, min=0))`, with the optional
normalization by self-covariance and the one-time auto-detection of the
kernel normalization status.  Returns the beta vector, the updated
`normalized` flag and the trace of collective reductions. -/
def get_covloss (sqrt : α → α) (ext : Ext α) (atoms : Atoms α) (m : Model α)
    (cov : List (List α)) (normalized : Option Bool) :
    List α × Option Bool × List (Ev α) :=
  let c := covloss_c m.mats.choli cov
  if normalized ≠ some true then
    let alpha := selfAlpha ext atoms
    let c2 := List.zipWith (· / ·) c alpha
    let detect :=
      if normalized = none then
        (some (allclose alpha 1), if atoms.is_distributed then [Ev.allReduce] else [])
      else (normalized, ([] : List (Ev α)))
    let beta := c2.map (fun ci => sqrt (max 0 (1 - ci)))
    (beta, detect.1, detect.2 ++ (if atoms.is_distributed then [Ev.allReduce] else []))
  else
    (c.map (fun ci => sqrt (max 0 (1 - ci))), normalized,
      if atoms.is_distributed then [Ev.allReduce] else [])

/-- `torch.argsort(beta, descending=True)`: the indices `0..n-1` sorted by
descending beta value. -/
def argsortDesc (beta : List α) : List ℕ :=
  List.insertionSort (fun i j => beta.getD j 0 ≤ beta.getD i 0) (List.range beta.length)

/-- The `for k in q: if k not in added_indices: break` idiom: the first index
of `q` not yet processed; if all of `q` was processed, `k` keeps the last
value of the iteration variable. -/
def pickK : List ℕ → List ℕ → ℕ
  | [], _ => 0
  | [k], _ => k
  | k :: k2 :: rest, added => if k ∈ added then pickK (k2 :: rest) added else k

/-- The mutable state threaded through the greedy selection loop of
`update_inducing`. -/
structure LoopState (α : Type) where
  model : Model α
  cov : List (List α)
  normalized : Option Bool
  added_beta : ℕ
  added_diff : ℕ
  added_indices : List ℕ
  blind : Bool
deriving DecidableEq, Repr

/-- The beta vector computed at the top of a loop iteration. -/
def loopBeta (sqrt : α → α) (ext : Ext α) (atoms : Atoms α) (s : LoopState α) : List α :=
  (get_covloss sqrt ext atoms s.model s.cov s.normalized).1

/-- The candidate index selected in a loop iteration. -/
def loopPick (sqrt : α → α) (ext : Ext α) (atoms : Atoms α) (s : LoopState α) : ℕ :=
  pickK (argsortDesc (loopBeta sqrt ext atoms s)) s.added_indices

/-- The threshold handed to `add_1inducing` on the energy-sensitivity path:
`self.ediff if len(self.model.X) > 1 else torch.finfo().tiny`. -/
def loopEdiff (tiny ediff : α) (s : LoopState α) : α :=
  if 1 < s.model.X.length then ediff else tiny

/-- Store the updated `normalized` flag and, when the candidate's beta is
numerically close to one, flag the round as blind. -/
def loopMark (sqrt : α → α) (ext : Ext α) (atoms : Atoms α) (s : LoopState α) : LoopState α :=
  let s1 := { s with normalized := (get_covloss sqrt ext atoms s.model s.cov s.normalized).2.1 }
  if isclose ((loopBeta sqrt ext atoms s).getD (loopPick sqrt ext atoms s) 0) 1 then
    { s1 with blind := true }
  else s1

/-- One iteration of the `while True` loop of `update_inducing` (active.py
lines 267-296).  `Sum.inl` means the loop continues with the new state,
`Sum.inr` means it breaks. -/
def loopStep (sqrt : α → α) (ext : Ext α) (tiny ediff covdiff : α) (atoms : Atoms α)
    (s : LoopState α) : (LoopState α ⊕ LoopState α) × List (Ev α) :=
  if s.added_indices.length = atoms.natoms then (Sum.inr s, [])
  else
    let beta := loopBeta sqrt ext atoms s
    let evc := (get_covloss sqrt ext atoms s.model s.cov s.normalized).2.2
    let k := loopPick sqrt ext atoms s
    let s1 := loopMark sqrt ext atoms s
    let loc := atoms.locEnv k
    if loc.number ∈ ext.species then
      if beta.getD k 0 > covdiff then
        let m := addInducing ext s1.model loc
        let x := ext.kernCol atoms loc
        (Sum.inl { s1 with
            model := m
            cov := appendCol s1.cov x
            added_beta := s1.added_beta + 1
            added_indices := s1.added_indices ++ [k] },
          evc ++ [Ev.addInducing loc])
      else
        let t := loopEdiff tiny ediff s1
        let res := add1inducing ext s1.model loc t
        if res.1 then
          (Sum.inl { s1 with
              model := res.2
              cov := appendCol s1.cov (ext.kernCol atoms loc)
              added_diff := s1.added_diff + 1
              added_indices := s1.added_indices ++ [k] },
            evc ++ [Ev.add1 loc t true])
        else (Sum.inr s1, evc ++ [Ev.add1 loc t false])
    else (Sum.inl s1, evc)

/-- Run the greedy loop with the given amount of fuel; `none` means the fuel
was exhausted (the Python loop has no fuel and would still be running). -/
def runLoop (sqrt : α → α) (ext : Ext α) (tiny ediff covdiff : α) (atoms : Atoms α) :
    ℕ → LoopState α → Option (LoopState α × List (Ev α))
  | 0, _ => none
  | fuel + 1, s =>
    match loopStep sqrt ext tiny ediff covdiff atoms s with
    | (Sum.inr s1, evs) => some (s1, evs)
    | (Sum.inl s1, evs) =>
      (runLoop sqrt ext tiny ediff covdiff atoms fuel s1).map
        (fun out => (out.1, evs ++ out.2))

/-- The mutable state of an `ActiveCalculator` instance. -/
structure CalcState (α : Type) where
  model : Model α
  cov : List (List α)
  normalized : Option Bool
  bias_pot : Option (List α)
  ediff : α
  fdiff : α
  covdiff : α
  bias : Option α
  step : ℕ
  blind : Bool
  results_energy : α
  results_forces : List (List α)
  results_stress : List α
deriving DecidableEq, Repr

/-- Number of columns of the covariance cache (`cov.size(1)`). -/
def covCols (cov : List (List α)) : ℕ := (cov.headD []).length

/-- `sum(dim=0)` of the broadcast outer product used in the stress assembly:
entry `(a, c)` is `Σ_i xs[i][a] * ys[i][c]`. -/
def outerSum (xs ys : List (List α)) : List (List α) :=
  (List.range 3).map (fun a =>
    (List.range 3).map (fun c =>
      ((xs.zip ys).map (fun p => p.1.getD a 0 * p.2.getD c 0)).sum))

/-- Elementwise negation of a matrix. -/
def matNeg (m : List (List α)) : List (List α) := m.map (fun r => r.map (fun v => -v))

/-- Elementwise sum of two matrices. -/
def matAdd (m1 m2 : List (List α)) : List (List α) :=
  List.zipWith (fun r1 r2 => List.zipWith (· + ·) r1 r2) m1 m2

/-- Divide every entry of a matrix by a scalar. -/
def matDiv (m : List (List α)) (v : α) : List (List α) := m.map (fun r => r.map (· / v))

/-- The Voigt flattening `stress.flat[[0, 4, 8, 5, 2, 1]]`. -/
def voigt (m : List (List α)) : List α :=
  [(m.getD 0 []).getD 0 0, (m.getD 1 []).getD 1 0, (m.getD 2 []).getD 2 0,
    (m.getD 1 []).getD 2 0, (m.getD 0 []).getD 2 0, (m.getD 0 []).getD 1 0]

/-- The force tensor assembled by `grads`: zeros when the position gradient
is unused, minus the gradient otherwise. -/
def gradForces (atoms : Atoms α) (rgrad : Option (List (List α))) : List (List α) :=
  match rgrad with
  | none => atoms.xyz.map (fun r => r.map (fun _ => 0))
  | some g => matNeg g

/-- The cell gradient with the `allow_unused` fallback to zeros. -/
def gradCell (atoms : Atoms α) (cellgrad : Option (List (List α))) : List (List α) :=
  match cellgrad with
  | none => atoms.lll.map (fun r => r.map (fun _ => 0))
  | some g => g

/-- `stress1 = -(forces[:, None] * xyz[..., None]).sum(dim=0)`. -/
def gradStress1 (atoms : Atoms α) (forces : List (List α)) : List (List α) :=
  matNeg (outerSum atoms.xyz forces)

/-- `stress2 = (cellgrad[:, None] * lll[..., None]).sum(dim=0)`. -/
def gradStress2 (atoms : Atoms α) (cellgrad : List (List α)) : List (List α) :=
  outerSum atoms.lll cellgrad

/-- The volume factor: the true cell volume, or the sentinel `-2` when
`get_volume` raises `ValueError` for a non-periodic system. -/
def volumeFactor (atoms : Atoms α) : α :=
  match atoms.volume with
  | some v => v
  | none => -2

/-- `ActiveCalculator.grads` (active.py lines 168-189): forces and stress of
a scalar energy, with the distributed reductions guarded by
`atoms.is_distributed` and the non-periodic volume fallback. -/
def grads (atoms : Atoms α) (rgrad cellgrad0 : Option (List (List α))) :
    (List (List α) × List (List α)) × List (Ev α) :=
  let forces := gradForces atoms rgrad
  let evs1 : List (Ev α) := if atoms.is_distributed then [Ev.allReduce] else []
  let stress1 := gradStress1 atoms forces
  let cellgrad := gradCell atoms cellgrad0
  let evs2 : List (Ev α) := if atoms.is_distributed then [Ev.allReduce] else []
  let stress2 := gradStress2 atoms cellgrad
  let stress := matDiv (matAdd stress1 stress2) (volumeFactor atoms)
  ((forces, stress), evs1 ++ evs2)

/-- `ActiveCalculator.calculate_results` (active.py lines 143-151): energy
as the full sum of cache entries weighted by `mu`, then forces and stress by
differentiation; records a shape checkpoint and the guarded reduction. -/
def calculate_results (ext : Ext α) (st : CalcState α) (atoms : Atoms α) :
    CalcState α × α × List (Ev α) :=
  let energy := (st.cov.map (fun row => dot row st.model.mats.mu)).sum
  let ev0 : List (Ev α) := [Ev.compute st.cov.length (st.cov.map List.length) st.model.X.length]
  let ev1 : List (Ev α) := if atoms.is_distributed then [Ev.allReduce] else []
  let out := grads atoms (ext.rgrad atoms st.model.mats.mu) (ext.cellgrad atoms st.model.mats.mu)
  ({ st with
      results_energy := energy
      results_forces := out.1.1
      results_stress := voigt out.1.2 },
    energy, ev0 ++ ev1 ++ out.2)

/-- `mu = (model.Mi @ cov.T).sum(dim=1)`: the per-inducing-point mean
response to the current configuration. -/
def biasMu (Mi cov : List (List α)) : List α :=
  Mi.map (fun r => (cov.map (fun row => dot r row)).sum)

/-- `ActiveCalculator.add_bias` (active.py lines 153-166): lazily create the
accumulator, add the scaled mean response onto it (padding first), compute
the bias energy/forces/stress from the cache with the accumulator as weight
vector, and add them onto the results.  The reduction of the mean response
is guarded by the distributed flag, the reduction of the bias energy is
not. -/
def add_bias (ext : Ext α) (st : CalcState α) (atoms : Atoms α) :
    CalcState α × α × List (Ev α) :=
  let pot0 := st.bias_pot.getD (List.replicate (covCols st.cov) 0)
  let mu := biasMu st.model.mats.Mi st.cov
  let ev1 : List (Ev α) := if atoms.is_distributed then [Ev.allReduce] else []
  let pot := List.zipWith (· + ·) (pad_1d pot0 mu) (mu.map (fun v => st.bias.getD 0 * v))
  let bias_energy := (st.cov.map (fun row => dot row pot)).sum
  let ev2 : List (Ev α) :=
    [Ev.compute st.cov.length (st.cov.map List.length) st.model.X.length, Ev.allReduce]
  let out := grads atoms (ext.rgrad atoms pot) (ext.cellgrad atoms pot)
  ({ st with
      bias_pot := some pot
      results_energy := st.results_energy + bias_energy
      results_forces := matAdd st.results_forces out.1.1
      results_stress := List.zipWith (· + ·) st.results_stress (voigt out.1.2) },
    bias_energy, ev1 ++ ev2 ++ out.2)

/-- `ActiveCalculator.snapshot` (active.py lines 218-229): a copy of the
current configuration labeled either with the calculator's own current
results (fake) or with the reference calculator's output (true). -/
def snapshot (ext : Ext α) (st : CalcState α) (atoms : Atoms α) (fake : Bool) :
    Conf α × List (Ev α) :=
  if fake then
    (⟨atoms, st.results_energy, st.results_forces⟩, [Ev.snapshot true st.results_energy])
  else
    let ef := ext.exact atoms
    (⟨atoms, ef.1, ef.2⟩, [Ev.fetchExact, Ev.snapshot false ef.1])

/-- `ActiveCalculator.head` (active.py lines 231-238): fetch the true
reference labels for the last training configuration, overwrite its cached
labels, and let the model recompute its mean/weight vectors. -/
def head (ext : Ext α) (m : Model α) : Model α × List (Ev α) :=
  match m.data.getLast? with
  | none => (m, [])
  | some last =>
    let ef := ext.exact last.atoms
    let m1 : Model α := { m with data := m.data.dropLast ++ [⟨last.atoms, ef.1, ef.2⟩] }
    (makeMunu ext m1, [Ev.fetchExact, Ev.overwrite, Ev.makeMunu])

/-- `ActiveCalculator.update_data` (active.py lines 306-316): attempt to
grow the training set with a snapshot of the current configuration; a
fake-labeled snapshot that was accepted is promoted through `head`. -/
def update_data (ext : Ext α) (st : CalcState α) (atoms : Atoms α) (try_fake : Bool) :
    CalcState α × ℕ × List (Ev α) :=
  let n := st.model.data.length
  let snap := snapshot ext st atoms try_fake
  let m1 := add1atoms ext st.model snap.1 st.ediff st.fdiff
  let added := m1.data.length - n
  if 0 < added then
    if try_fake then
      let h := head ext m1
      ({ st with model := h.1 }, added, snap.2 ++ h.2)
    else ({ st with model := m1 }, added, snap.2)
  else ({ st with model := m1 }, added, snap.2)

/-- The loop state at entry of `update_inducing`. -/
def initLoop (st : CalcState α) : LoopState α :=
  ⟨st.model, st.cov, st.normalized, 0, 0, [], false⟩

/-- `ActiveCalculator.update_inducing` (active.py lines 262-304): run the
greedy selection loop (with enough fuel to cover every terminating run of
the Python loop) and write the grown model, cache, flags and the number of
added inducing points back into the calculator state. -/
def update_inducing (sqrt : α → α) (ext : Ext α) (tiny : α) (st : CalcState α)
    (atoms : Atoms α) : Option (CalcState α × ℕ × List (Ev α)) :=
  (runLoop sqrt ext tiny st.ediff st.covdiff atoms (atoms.natoms + 3) (initLoop st)).map
    (fun out =>
      ({ st with
          model := out.1.model
          cov := out.1.cov
          normalized := out.1.normalized
          blind := out.1.blind },
        out.1.added_beta + out.1.added_diff, out.2))

/-- `ActiveCalculator.update` (active.py lines 318-326): grow the inducing
set, then attempt training-set growth only if the inducing set grew, with a
fake label unless the round was blind. -/
def update (sqrt : α → α) (ext : Ext α) (tiny : α) (st : CalcState α) (atoms : Atoms α) :
    Option (CalcState α × ℕ × ℕ × List (Ev α)) :=
  (update_inducing sqrt ext tiny st atoms).map
    (fun out =>
      if 0 < out.2.1 then
        let d := update_data ext out.1 atoms (! out.1.blind)
        (d.1, out.2.1, d.2.1, out.2.2 ++ d.2.2)
      else (out.1, out.2.1, 0, out.2.2))

/-- `ActiveCalculator.initiate_model` (active.py lines 191-200): bootstrap
the model from the first configuration: one representative environment per
species as the inducing seed, the whole labeled configuration as the
training seed, then energy-sensitivity adds for every remaining atom. -/
def initiate_model (ext : Ext α) (st : CalcState α) (atoms : Atoms α) :
    Model α × List (Ev α) :=
  let snap := snapshot ext st atoms false
  let i := first_of_each_atom_type atoms.numbers
  let inducing := i.map atoms.locEnv
  let m0 := setData ext [snap.1] inducing
  let fold := (List.range atoms.natoms).foldl
    (fun acc j =>
      if j ∈ i then acc
      else
        let res := add1inducing ext acc.1 (atoms.locEnv j) st.ediff
        (res.2, acc.2 ++ [Ev.add1 (atoms.locEnv j) st.ediff res.1]))
    ((m0, []) : Model α × List (Ev α))
  (fold.1, snap.2 ++ [Ev.bootstrap] ++ fold.2)

/-- `ActiveCalculator.calculate` (active.py lines 94-141): the per-step
contract — bootstrap on the very first step with an empty model, compute
the covariance cache and the results, run the selector unless this was the
bootstrap step, recompute the results if the model grew, add the bias
contribution, advance the step counter. -/
def calculate (sqrt : α → α) (ext : Ext α) (tiny : α) (st : CalcState α) (atoms : Atoms α) :
    Option (CalcState α × List (Ev α)) :=
  let boot :=
    if st.step = 0 ∧ st.model.data.length = 0 then
      let ini := initiate_model ext st atoms
      (({ st with model := ini.1 } : CalcState α), true, ini.2)
    else (st, false, ([] : List (Ev α)))
  let st1 := { boot.1 with cov := kernMatrix ext atoms boot.1.model.X }
  let r1 := calculate_results ext st1 atoms
  let upd :=
    if boot.2.1 then some (r1.1, 0, 0, ([] : List (Ev α)))
    else (update sqrt ext tiny r1.1 atoms).map
      (fun out => (out.1, out.2.1, out.2.2.1, Ev.selector :: out.2.2.2))
  upd.map (fun out =>
    let st2 :=
      if 0 < out.2.1 ∨ 0 < out.2.2.1 then
        let r2 := calculate_results ext out.1 atoms
        (r2.1, r2.2.2)
      else (out.1, ([] : List (Ev α)))
    let st3 :=
      match st2.1.bias with
      | some _ =>
        let b := add_bias ext st2.1 atoms
        (b.1, b.2.2)
      | none => (st2.1, ([] : List (Ev α)))
    ({ st3.1 with step := st3.1.step + 1 },
      boot.2.2 ++ r1.2.2 ++ out.2.2.2 ++ st2.2 ++ st3.2))

/-- A sequence of simulation steps: fold `calculate` over a list of
configurations, collecting the whole event trace. -/
def runCalcs (sqrt : α → α) (ext : Ext α) (tiny : α) :
    CalcState α → List (Atoms α) → Option (CalcState α × List (Ev α))
  | st, [] => some (st, [])
  | st, a :: rest =>
    match calculate sqrt ext tiny st a with
    | none => none
    | some (st1, evs) =>
      (runCalcs sqrt ext tiny st1 rest).map (fun out => (out.1, evs ++ out.2))

/-- Revisit the same configuration `n` times with only the bias step
running (the model does not grow). -/
def revisitBias (ext : Ext α) (atoms : Atoms α) : ℕ → CalcState α → CalcState α
  | 0, st => st
  | n + 1, st => (add_bias ext (revisitBias ext atoms n st) atoms).1

/-! ### Helper lemmas -/

theorem mem_zipWith_decomp {β γ δ : Type} {f : β → γ → δ} :
    ∀ {u : List β} {v : List γ} {x : δ}, x ∈ List.zipWith f u v →
      ∃ a ∈ u, ∃ b ∈ v, x = f a b := by
  intro u
  induction u with
  | nil => intro v x h; simp [List.zipWith] at h
  | cons a u ih =>
    intro v x h
    cases v with
    | nil => simp [List.zipWith] at h
    | cons b v =>
      simp only [List.zipWith, List.mem_cons] at h
      rcases h with h | h
      · exact ⟨a, by simp, b, by simp, h⟩
      · obtain ⟨a', ha, b', hb, hx⟩ := ih h
        exact ⟨a', by simp [ha], b', by simp [hb], hx⟩

theorem covloss_c_nonneg {choli cov : List (List α)} {x : α}
    (h : x ∈ covloss_c choli cov) : 0 ≤ x := by
  unfold covloss_c at h
  obtain ⟨row, _, hx⟩ := List.mem_map.1 h
  subst hx
  apply List.sum_nonneg
  intro y hy
  obtain ⟨cr, _, hy'⟩ := List.mem_map.1 hy
  subst hy'
  exact sq_nonneg _

omit [LinearOrderedField α] in
theorem selfAlpha_mem {ext : Ext α} {atoms : Atoms α} {a : α}
    (h : a ∈ selfAlpha ext atoms) :
    ∃ k, k < atoms.natoms ∧ a = ext.selfKern (atoms.locEnv k) := by
  unfold selfAlpha at h
  obtain ⟨k, hk, ha⟩ := List.mem_map.1 h
  exact ⟨k, List.mem_range.1 hk, ha.symm⟩

/-! ### C3: beta range -/

/-- C3.  For every atom, the covariance-loss score beta returned by
`get_covloss` satisfies `0 ≤ beta ≤ 1`, given positive self-covariances when
the unnormalized path divides by them, for both normalized and unnormalized
kernels (any value of the `normalized` flag): beta is
`sqrt(max(0, 1 - normalizedLoss))`. -/
theorem c3_beta_range (ext : Ext ℝ) (atoms : Atoms ℝ) (m : Model ℝ)
    (cov : List (List ℝ)) (flag : Option Bool)
    (hpos : ∀ k, k < atoms.natoms → 0 < ext.selfKern (atoms.locEnv k)) :
    ∀ b ∈ (get_covloss Real.sqrt ext atoms m cov flag).1, 0 ≤ b ∧ b ≤ 1 := by
  intro b hb
  have key : ∃ ci : ℝ, 0 ≤ ci ∧ b = Real.sqrt (max 0 (1 - ci)) := by
    unfold get_covloss at hb
    by_cases hf : flag ≠ some true
    · rw [if_pos hf] at hb
      simp only at hb
      obtain ⟨ci, hci, hb'⟩ := List.mem_map.1 hb
      obtain ⟨c, hc, a, ha, hval⟩ := mem_zipWith_decomp hci
      obtain ⟨k, hk, ha'⟩ := selfAlpha_mem ha
      refine ⟨ci, ?_, hb'.symm⟩
      subst hval
      exact div_nonneg (covloss_c_nonneg hc) (le_of_lt (ha' ▸ hpos k hk))
    · rw [if_neg hf] at hb
      simp only at hb
      obtain ⟨ci, hci, hb'⟩ := List.mem_map.1 hb
      exact ⟨ci, covloss_c_nonneg hci, hb'.symm⟩
  obtain ⟨ci, hci, hb⟩ := key
  subst hb
  refine ⟨Real.sqrt_nonneg _, ?_⟩
  rw [Real.sqrt_le_one]
  exact max_le zero_le_one (by linarith)

/-- A concrete one-atom configuration over the reals. -/
def atomsR : Atoms ℝ := ⟨[1], [[0, 0, 0]], [[1, 0, 0]], none, false⟩

/-- A concrete external-collaborator record over the reals: one known
species, unit covariances, constant model internals. -/
def extR : Ext ℝ where
  species := [1]
  kernCol := fun _ _ => [1]
  selfKern := fun _ => 1
  delta := fun _ _ => 0
  acceptData := fun _ _ _ _ => true
  refit := fun _ _ => ⟨[[1]], [[1]], [1]⟩
  exact := fun _ => (0, [])
  rgrad := fun _ _ => none
  cellgrad := fun _ _ => none

/-- A concrete model over the reals. -/
def modelR : Model ℝ := ⟨[⟨1, 0⟩], [], ⟨[[1]], [[1]], [1]⟩⟩

/-- Witness for C3 at a concrete one-atom configuration with unit
self-covariance. -/
theorem c3_beta_range_witness :
    (∀ k, k < atomsR.natoms → 0 < extR.selfKern (atomsR.locEnv k)) ∧
    ∀ b ∈ (get_covloss Real.sqrt extR atomsR modelR [[1]] none).1,
      0 ≤ b ∧ b ≤ 1 := by
  have h : ∀ k, k < atomsR.natoms → 0 < extR.selfKern (atomsR.locEnv k) := by
    intro k _
    show (0 : ℝ) < 1
    norm_num
  exact ⟨h, c3_beta_range extR atomsR modelR [[1]] none h⟩

/-! ### C9: one-time normalization auto-detection -/

/-- C9.  The kernel-normalization flag transitions from undetected (`none`)
to a fixed boolean on the first covariance-loss computation, is never
re-evaluated on later calls, and once the kernel is detected as normalized
(`some true`) the division by the per-atom self-covariance is skipped: beta
is computed directly from the raw projected loss. -/
theorem c9_normalization_once (sqrt : α → α) (ext : Ext α) (atoms : Atoms α)
    (m : Model α) (cov : List (List α)) :
    (get_covloss sqrt ext atoms m cov none).2.1 =
        some (allclose (selfAlpha ext atoms) 1) ∧
    (∀ b : Bool, (get_covloss sqrt ext atoms m cov (some b)).2.1 = some b) ∧
    (get_covloss sqrt ext atoms m cov (some true)).1 =
      (covloss_c m.mats.choli cov).map (fun ci => sqrt (max 0 (1 - ci))) := by
  refine ⟨?_, ?_, ?_⟩
  · unfold get_covloss
    simp
  · intro b
    cases b <;> unfold get_covloss <;> simp
  · unfold get_covloss
    simp

/-! ### C10: the bias step's unconditional all-reduce -/

/-- C10.  In non-distributed mode, `add_bias` still performs a collective
all-reduce on the bias energy (active.py line 161 has no
`is_distributed` guard), while the plain read path `calculate_results`
performs no collective reduction at all. -/
theorem c10_bias_allreduce_unguarded (ext : Ext α) (st : CalcState α)
    (atoms : Atoms α) (h : atoms.is_distributed = false) :
    Ev.allReduce ∈ (add_bias ext st atoms).2.2 ∧
    Ev.allReduce ∉ (calculate_results ext st atoms).2.2 := by
  constructor
  · unfold add_bias
    simp [h]
  · unfold calculate_results grads
    simp [h]

/-- A concrete one-atom configuration over the rationals. -/
def atomsQ : Atoms ℚ := ⟨[1], [[0, 0, 0]], [[1, 0, 0]], none, false⟩

/-- A concrete external-collaborator record over the rationals. -/
def extQ : Ext ℚ where
  species := [1]
  kernCol := fun _ _ => [1]
  selfKern := fun _ => 1
  delta := fun _ _ => 0
  acceptData := fun _ _ _ _ => true
  refit := fun _ _ => ⟨[[1]], [[1]], [1]⟩
  exact := fun _ => (0, [])
  rgrad := fun _ _ => none
  cellgrad := fun _ _ => none

/-- A concrete calculator state over the rationals: covariance cache with
one row and one column, bias enabled. -/
def stQ : CalcState ℚ where
  model := ⟨[⟨1, 0⟩], [], ⟨[[1]], [[1]], [1]⟩⟩
  cov := [[1]]
  normalized := some true
  bias_pot := none
  ediff := 1
  fdiff := 1
  covdiff := 1
  bias := some 1
  step := 1
  blind := false
  results_energy := 0
  results_forces := [[0, 0, 0]]
  results_stress := [0, 0, 0, 0, 0, 0]

/-- Witness for C10 at a concrete non-distributed configuration. -/
theorem c10_bias_allreduce_unguarded_witness :
    atomsQ.is_distributed = false ∧
    (Ev.allReduce ∈ (add_bias extQ stQ atomsQ).2.2 ∧
      Ev.allReduce ∉ (calculate_results extQ stQ atomsQ).2.2) :=
  ⟨rfl, c10_bias_allreduce_unguarded extQ stQ atomsQ rfl⟩

/-! ### C8: stress volume sentinel -/

/-- C8.  The gradients operation never fails on a non-periodic
configuration: when the cell volume is undefined the stress is the
assembled virial divided by the sentinel constant `-2`, while the periodic
case divides by the true cell volume. -/
theorem c8_stress_sentinel (atoms : Atoms α) (rg cg : Option (List (List α))) :
    (atoms.volume = none →
      (grads atoms rg cg).1.2 =
        matDiv (matAdd (gradStress1 atoms (gradForces atoms rg))
          (gradStress2 atoms (gradCell atoms cg))) (-2)) ∧
    (∀ v : α, atoms.volume = some v →
      (grads atoms rg cg).1.2 =
        matDiv (matAdd (gradStress1 atoms (gradForces atoms rg))
          (gradStress2 atoms (gradCell atoms cg))) v) := by
  constructor
  · intro h
    unfold grads volumeFactor
    rw [h]
  · intro v h
    unfold grads volumeFactor
    rw [h]

/-- Witness for C8 at a concrete non-periodic configuration. -/
theorem c8_stress_sentinel_witness :
    atomsQ.volume = none ∧
    (grads atomsQ (none : Option (List (List ℚ))) none).1.2 =
      matDiv (matAdd (gradStress1 atomsQ (gradForces atomsQ none))
        (gradStress2 atomsQ (gradCell atomsQ none))) (-2) :=
  ⟨rfl, (c8_stress_sentinel atomsQ none none).1 rfl⟩

/-! ### C4: the energy-sensitivity path and its early exit -/

theorem loopMark_model (sqrt : α → α) (ext : Ext α) (atoms : Atoms α) (s : LoopState α) :
    (loopMark sqrt ext atoms s).model = s.model := by
  unfold loopMark
  split <;> rfl

theorem loopMark_cov (sqrt : α → α) (ext : Ext α) (atoms : Atoms α) (s : LoopState α) :
    (loopMark sqrt ext atoms s).cov = s.cov := by
  unfold loopMark
  split <;> rfl

theorem loopMark_added_indices (sqrt : α → α) (ext : Ext α) (atoms : Atoms α)
    (s : LoopState α) :
    (loopMark sqrt ext atoms s).added_indices = s.added_indices := by
  unfold loopMark
  split <;> rfl

/-- C4.  In the greedy selection loop, when the candidate atom's beta does
not exceed the covariance-loss threshold, the energy-sensitivity add is
attempted with the floor threshold `tiny` if the inducing set has at most
one member and with the configured `ediff` otherwise; and if that add is
rejected, the loop breaks immediately: for any remaining fuel the loop
returns right away, with no state growth and no further candidate tried. -/
theorem c4_energy_path_early_exit (sqrt : α → α) (ext : Ext α)
    (tiny ediff covdiff : α) (atoms : Atoms α) (s : LoopState α)
    (hlen : s.added_indices.length ≠ atoms.natoms)
    (hsp : (atoms.locEnv (loopPick sqrt ext atoms s)).number ∈ ext.species)
    (hbeta : ¬ (loopBeta sqrt ext atoms s).getD (loopPick sqrt ext atoms s) 0 > covdiff)
    (hfail : ¬ ext.delta s.model (atoms.locEnv (loopPick sqrt ext atoms s)) >
        loopEdiff tiny ediff s) :
    ((s.model.X.length ≤ 1 → loopEdiff tiny ediff s = tiny) ∧
      (1 < s.model.X.length → loopEdiff tiny ediff s = ediff)) ∧
    loopStep sqrt ext tiny ediff covdiff atoms s =
      (Sum.inr (loopMark sqrt ext atoms s),
        (get_covloss sqrt ext atoms s.model s.cov s.normalized).2.2 ++
          [Ev.add1 (atoms.locEnv (loopPick sqrt ext atoms s))
            (loopEdiff tiny ediff s) false]) ∧
    (∀ fuel : ℕ, runLoop sqrt ext tiny ediff covdiff atoms (fuel + 1) s =
      some (loopMark sqrt ext atoms s,
        (get_covloss sqrt ext atoms s.model s.cov s.normalized).2.2 ++
          [Ev.add1 (atoms.locEnv (loopPick sqrt ext atoms s))
            (loopEdiff tiny ediff s) false])) := by
  have hediff : loopEdiff tiny ediff (loopMark sqrt ext atoms s) = loopEdiff tiny ediff s := by
    unfold loopEdiff
    rw [loopMark_model]
  have hres : add1inducing ext (loopMark sqrt ext atoms s).model
      (atoms.locEnv (loopPick sqrt ext atoms s))
      (loopEdiff tiny ediff s) =
      (false, (loopMark sqrt ext atoms s).model) := by
    unfold add1inducing
    rw [loopMark_model, if_neg hfail]
  have hstep : loopStep sqrt ext tiny ediff covdiff atoms s =
      (Sum.inr (loopMark sqrt ext atoms s),
        (get_covloss sqrt ext atoms s.model s.cov s.normalized).2.2 ++
          [Ev.add1 (atoms.locEnv (loopPick sqrt ext atoms s))
            (loopEdiff tiny ediff s) false]) := by
    simp only [loopStep, if_neg hlen, hediff]
    rw [if_pos hsp, if_neg hbeta, hres]
    simp
  refine ⟨⟨?_, ?_⟩, hstep, ?_⟩
  · intro h
    unfold loopEdiff
    rw [if_neg (by omega)]
  · intro h
    unfold loopEdiff
    rw [if_pos h]
  · intro fuel
    unfold runLoop
    rw [hstep]

/-- A concrete one-candidate loop state over the rationals (beta is 0, the
threshold is 1, the sensitivity measure is 0). -/
def sQ : LoopState ℚ := ⟨⟨[⟨1, 0⟩], [], ⟨[[1]], [[1]], [1]⟩⟩, [[1]], some true, 0, 0, [], false⟩

/-- Witness for C4 at a concrete loop state where the candidate's beta is
below the threshold and the energy-sensitivity add is rejected. -/
theorem c4_energy_path_early_exit_witness :
    (sQ.added_indices.length ≠ atomsQ.natoms ∧
      (atomsQ.locEnv (loopPick id extQ atomsQ sQ)).number ∈ extQ.species ∧
      ¬ (loopBeta id extQ atomsQ sQ).getD (loopPick id extQ atomsQ sQ) 0 > (1 : ℚ) ∧
      ¬ extQ.delta sQ.model (atomsQ.locEnv (loopPick id extQ atomsQ sQ)) >
        loopEdiff ((1 : ℚ) / 1000) 1 sQ) ∧
    loopStep id extQ (1 / 1000) 1 1 atomsQ sQ =
      (Sum.inr (loopMark id extQ atomsQ sQ),
        (get_covloss id extQ atomsQ sQ.model sQ.cov sQ.normalized).2.2 ++
          [Ev.add1 (atomsQ.locEnv (loopPick id extQ atomsQ sQ))
            (loopEdiff (1 / 1000) 1 sQ) false]) := by
  have h1 : sQ.added_indices.length ≠ atomsQ.natoms := by
    norm_num [sQ, atomsQ, Atoms.natoms]
  have hpick : loopPick id extQ atomsQ sQ = 0 := by
    norm_num [loopPick, loopBeta, get_covloss, covloss_c, dot, sQ, atomsQ,
      argsortDesc, pickK, List.insertionSort, List.orderedInsert, Atoms.natoms]
  have hbeta0 : loopBeta id extQ atomsQ sQ = [0] := by
    norm_num [loopBeta, get_covloss, covloss_c, dot, sQ]
  have h2 : (atomsQ.locEnv (loopPick id extQ atomsQ sQ)).number ∈ extQ.species := by
    rw [hpick]
    norm_num [atomsQ, Atoms.locEnv, extQ]
  have h3 : ¬ (loopBeta id extQ atomsQ sQ).getD (loopPick id extQ atomsQ sQ) 0 > (1 : ℚ) := by
    rw [hpick, hbeta0]
    norm_num
  have h4 : ¬ extQ.delta sQ.model (atomsQ.locEnv (loopPick id extQ atomsQ sQ)) >
      loopEdiff ((1 : ℚ) / 1000) 1 sQ := by
    norm_num [extQ, loopEdiff, sQ]
  exact ⟨⟨h1, h2, h3, h4⟩,
    (c4_energy_path_early_exit id extQ (1 / 1000) 1 1 atomsQ sQ h1 h2 h3 h4).2.1⟩

/-! ### C1: termination of the greedy selection loop -/

omit [LinearOrderedField α] in
theorem appendCol_length {cov : List (List α)} {x : List α} {n : ℕ}
    (hc : cov.length = n) (hx : x.length = n) : (appendCol cov x).length = n := by
  unfold appendCol
  rw [List.length_zipWith, hc, hx, Nat.min_self]

theorem loopBeta_length {sqrt : α → α} {ext : Ext α} {atoms : Atoms α} {s : LoopState α}
    (hcov : s.cov.length = atoms.natoms) :
    (loopBeta sqrt ext atoms s).length = atoms.natoms := by
  unfold loopBeta get_covloss
  split
  · simp [covloss_c, selfAlpha, hcov]
  · simp [covloss_c, hcov]

theorem argsortDesc_perm (beta : List α) :
    (argsortDesc beta).Perm (List.range beta.length) :=
  List.perm_insertionSort _ _

omit [LinearOrderedField α] in
theorem nodup_bounded_length {l : List ℕ} {n : ℕ} (hnd : l.Nodup)
    (hb : ∀ j ∈ l, j < n) : l.length ≤ n := by
  have hsub : l ⊆ List.range n := fun x hx => List.mem_range.2 (hb x hx)
  have := (List.subperm_of_subset hnd hsub).length_le
  simpa using this

omit [LinearOrderedField α] in
theorem exists_not_added {n : ℕ} {q added : List ℕ} (hq : q.Perm (List.range n))
    (hlt : added.length < n) :
    ∃ x ∈ q, x ∉ added := by
  by_contra hc
  push_neg at hc
  have hsub : List.range n ⊆ added := fun x hx => hc x (hq.mem_iff.2 hx)
  have := (List.subperm_of_subset (List.nodup_range n) hsub).length_le
  rw [List.length_range] at this
  omega

omit [LinearOrderedField α] in
theorem pickK_spec : ∀ {q added : List ℕ}, (∃ x ∈ q, x ∉ added) →
    pickK q added ∈ q ∧ pickK q added ∉ added := by
  intro q
  induction q with
  | nil =>
    intro added h
    simp at h
  | cons a q ih =>
    intro added h
    cases q with
    | nil =>
      obtain ⟨x, hx, hxn⟩ := h
      simp at hx
      subst hx
      exact ⟨by simp [pickK], hxn⟩
    | cons b q' =>
      by_cases ha : a ∈ added
      · obtain ⟨x, hx, hxn⟩ := h
        have hxb : x ∈ b :: q' := by
          rcases List.mem_cons.1 hx with h1 | h1
          · exact absurd ha (h1 ▸ hxn)
          · exact h1
        have := ih ⟨x, hxb, hxn⟩
        unfold pickK
        rw [if_pos ha]
        exact ⟨List.mem_cons_of_mem _ this.1, this.2⟩
      · unfold pickK
        rw [if_neg ha]
        exact ⟨List.mem_cons_self _ _, ha⟩

/-- The loop invariant of `update_inducing`: the cache has one row per atom
and the processed indices are distinct atom indices. -/
def LoopInv (atoms : Atoms α) (s : LoopState α) : Prop :=
  s.cov.length = atoms.natoms ∧ s.added_indices.Nodup ∧
    ∀ j ∈ s.added_indices, j < atoms.natoms

/-- One iteration of the greedy loop, when every atom's species is known to
the kernel, either breaks without touching the processed indices or makes
strict progress: it processes one fresh atom index, and the loop invariant
is preserved. -/
theorem loopStep_progress (sqrt : α → α) (ext : Ext α) (tiny ediff covdiff : α)
    (atoms : Atoms α) (s : LoopState α)
    (hwf : ext.WF atoms)
    (hsp : ∀ k, k < atoms.natoms → atoms.numbers.getD k 0 ∈ ext.species)
    (hinv : LoopInv atoms s) :
    (∀ s1 evs, loopStep sqrt ext tiny ediff covdiff atoms s = (Sum.inr s1, evs) →
      s1.added_indices = s.added_indices) ∧
    (∀ s1 evs, loopStep sqrt ext tiny ediff covdiff atoms s = (Sum.inl s1, evs) →
      LoopInv atoms s1 ∧
      s1.added_indices.length = s.added_indices.length + 1) := by
  obtain ⟨hcov, hnd, hb⟩ := hinv
  by_cases hlen : s.added_indices.length = atoms.natoms
  · constructor
    · intro s1 evs heq
      unfold loopStep at heq
      rw [if_pos hlen] at heq
      injection heq with h1 h2
      injection h1 with h1
      rw [← h1]
    · intro s1 evs heq
      unfold loopStep at heq
      rw [if_pos hlen] at heq
      simp at heq
  · have hblen : (loopBeta sqrt ext atoms s).length = atoms.natoms :=
      loopBeta_length hcov
    have hperm : (argsortDesc (loopBeta sqrt ext atoms s)).Perm (List.range atoms.natoms) := by
      have h := argsortDesc_perm (loopBeta sqrt ext atoms s)
      rwa [hblen] at h
    have hex : ∃ x ∈ argsortDesc (loopBeta sqrt ext atoms s), x ∉ s.added_indices :=
      exists_not_added hperm
        (lt_of_le_of_ne (nodup_bounded_length hnd hb) hlen)
    obtain ⟨hkq0, hkn0⟩ := pickK_spec hex
    have hkq : loopPick sqrt ext atoms s ∈ argsortDesc (loopBeta sqrt ext atoms s) := hkq0
    have hkn : loopPick sqrt ext atoms s ∉ s.added_indices := hkn0
    have hklt : loopPick sqrt ext atoms s < atoms.natoms :=
      List.mem_range.1 (hperm.mem_iff.1 hkq)
    have hksp : (atoms.locEnv (loopPick sqrt ext atoms s)).number ∈ ext.species :=
      hsp _ hklt
    have hnd1 : (s.added_indices ++ [loopPick sqrt ext atoms s]).Nodup := by
      simp [List.nodup_append, hnd, hkn]
    have hb1 : ∀ j ∈ s.added_indices ++ [loopPick sqrt ext atoms s], j < atoms.natoms := by
      intro j hj
      rcases List.mem_append.1 hj with h1 | h1
      · exact hb j h1
      · simp at h1
        exact h1 ▸ hklt
    have hcov1 : (appendCol (loopMark sqrt ext atoms s).cov
        (ext.kernCol atoms (atoms.locEnv (loopPick sqrt ext atoms s)))).length = atoms.natoms :=
      appendCol_length (by rw [loopMark_cov]; exact hcov) (hwf _)
    by_cases hβ : (loopBeta sqrt ext atoms s).getD (loopPick sqrt ext atoms s) 0 > covdiff
    · constructor
      · intro s1 evs heq
        simp only [loopStep, if_neg hlen] at heq
        rw [if_pos hksp, if_pos hβ] at heq
        simp at heq
      · intro s1 evs heq
        simp only [loopStep, if_neg hlen] at heq
        rw [if_pos hksp, if_pos hβ] at heq
        injection heq with h1 h2
        injection h1 with h1
        rw [← h1]
        refine ⟨⟨hcov1, ?_, ?_⟩, ?_⟩
        · simpa [loopMark_added_indices] using hnd1
        · simpa [loopMark_added_indices] using hb1
        · simp [loopMark_added_indices]
    · rcases hres : add1inducing ext (loopMark sqrt ext atoms s).model
          (atoms.locEnv (loopPick sqrt ext atoms s))
          (loopEdiff tiny ediff (loopMark sqrt ext atoms s)) with ⟨added, m1⟩
      cases added with
      | true =>
        constructor
        · intro s1 evs heq
          simp only [loopStep, if_neg hlen] at heq
          rw [if_pos hksp, if_neg hβ, hres] at heq
          split at heq
          · simp at heq
          · simp_all
        · intro s1 evs heq
          simp only [loopStep, if_neg hlen] at heq
          rw [if_pos hksp, if_neg hβ, hres] at heq
          split at heq
          · injection heq with h1 h2
            injection h1 with h1
            rw [← h1]
            refine ⟨⟨hcov1, ?_, ?_⟩, ?_⟩
            · simpa [loopMark_added_indices] using hnd1
            · simpa [loopMark_added_indices] using hb1
            · simp [loopMark_added_indices]
          · simp_all
      | false =>
        constructor
        · intro s1 evs heq
          simp only [loopStep, if_neg hlen] at heq
          rw [if_pos hksp, if_neg hβ, hres] at heq
          split at heq
          · simp_all
          · injection heq with h1 h2
            injection h1 with h1
            rw [← h1, loopMark_added_indices]
        · intro s1 evs heq
          simp only [loopStep, if_neg hlen] at heq
          rw [if_pos hksp, if_neg hβ, hres] at heq
          split at heq
          · simp_all
          · simp at heq

/-- With every atom's species known to the kernel, the greedy loop finishes
within the remaining fuel whenever the fuel exceeds the number of
still-unprocessed atoms, and the processed indices stay distinct. -/
theorem runLoop_terminates (sqrt : α → α) (ext : Ext α) (tiny ediff covdiff : α)
    (atoms : Atoms α)
    (hwf : ext.WF atoms)
    (hsp : ∀ k, k < atoms.natoms → atoms.numbers.getD k 0 ∈ ext.species) :
    ∀ fuel (s : LoopState α), LoopInv atoms s →
      atoms.natoms - s.added_indices.length < fuel →
      ∃ out, runLoop sqrt ext tiny ediff covdiff atoms fuel s = some out ∧
        out.1.added_indices.Nodup ∧ out.1.added_indices.length ≤ atoms.natoms := by
  intro fuel
  induction fuel with
  | zero =>
    intro s _ hf
    omega
  | succ fuel ih =>
    intro s hinv hf
    obtain ⟨hbreak, hprog⟩ :=
      loopStep_progress sqrt ext tiny ediff covdiff atoms s hwf hsp hinv
    rcases hstep : loopStep sqrt ext tiny ediff covdiff atoms s with ⟨res, evs⟩
    cases res with
    | inr s1 =>
      have hadd := hbreak s1 evs hstep
      refine ⟨(s1, evs), ?_, ?_, ?_⟩
      · unfold runLoop
        rw [hstep]
      · rw [hadd]
        exact hinv.2.1
      · rw [hadd]
        exact nodup_bounded_length hinv.2.1 hinv.2.2
    | inl s1 =>
      obtain ⟨hinv1, hlen1⟩ := hprog s1 evs hstep
      have hle1 : s1.added_indices.length ≤ atoms.natoms :=
        nodup_bounded_length hinv1.2.1 hinv1.2.2
      obtain ⟨out, hout, hnd2, hle2⟩ := ih s1 hinv1 (by omega)
      refine ⟨(out.1, evs ++ out.2), ?_, hnd2, hle2⟩
      simp only [runLoop, hstep]
      rw [hout]
      rfl

/-- C1 (amended).  When every atom's species is known to the model's
kernel, the greedy inducing-point selection loop terminates within
`numAtoms` additions (fuel `numAtoms + 1` suffices, and so does the fuel
used by `update_inducing`), and no atom index is processed twice in the same
round.  (The unamended claim fails: with an atom of unknown species the loop
need not terminate — see the counterexample.) -/
theorem c1_update_inducing_terminates (sqrt : α → α) (ext : Ext α) (tiny : α)
    (st : CalcState α) (atoms : Atoms α)
    (hwf : ext.WF atoms)
    (hsp : ∀ k, k < atoms.natoms → atoms.numbers.getD k 0 ∈ ext.species)
    (hcov : st.cov.length = atoms.natoms) :
    (∃ out, runLoop sqrt ext tiny st.ediff st.covdiff atoms (atoms.natoms + 1)
        (initLoop st) = some out ∧
      out.1.added_indices.Nodup ∧ out.1.added_indices.length ≤ atoms.natoms) ∧
    (update_inducing sqrt ext tiny st atoms).isSome := by
  have hinv : LoopInv atoms (initLoop st) := by
    refine ⟨hcov, List.nodup_nil, ?_⟩
    intro j hj
    simp [initLoop] at hj
  constructor
  · exact runLoop_terminates sqrt ext tiny st.ediff st.covdiff atoms hwf hsp
      (atoms.natoms + 1) (initLoop st) hinv (by simp [initLoop])
  · obtain ⟨out, hout, -, -⟩ :=
      runLoop_terminates sqrt ext tiny st.ediff st.covdiff atoms hwf hsp
        (atoms.natoms + 3) (initLoop st) hinv (by simp [initLoop])
    unfold update_inducing
    rw [hout]
    rfl

/-- A 7-atom, 2-species configuration; species `2` will be unknown to the
kernel. -/
def atoms7 : Atoms ℚ :=
  ⟨[2, 1, 1, 1, 2, 2, 2], List.replicate 7 [0, 0, 0],
    [[1, 0, 0], [0, 1, 0], [0, 0, 1]], some 1, false⟩

/-- External collaborators knowing only species `1`, with a kernel whose
covariance columns vanish on this configuration (so every beta is 1). -/
def ext7 : Ext ℚ where
  species := [1]
  kernCol := fun a _ => a.numbers.map (fun _ => 0)
  selfKern := fun _ => 1
  delta := fun _ _ => 0
  acceptData := fun _ _ _ _ => true
  refit := fun _ _ => ⟨[], [], []⟩
  exact := fun _ => (0, [])
  rgrad := fun _ _ => none
  cellgrad := fun _ _ => none

/-- The single inducing environment of the 7-atom instance (atom 1,
species 1). -/
def loc11 : Loc := ⟨1, 1⟩

/-- A model holding that one inducing point and an empty projection
factor. -/
def model7 : Model ℚ := ⟨[loc11], [], ⟨[], [], []⟩⟩

/-- The covariance cache `kernMatrix ext7 atoms7 [loc11]` as a literal. -/
def cov7 : List (List ℚ) := [[0], [0], [0], [0], [0], [0], [0]]

/-- The calculator state entering `update_inducing` on the 7-atom
instance. -/
def st7c : CalcState ℚ where
  model := model7
  cov := cov7
  normalized := some true
  bias_pot := none
  ediff := 1 / 10
  fdiff := 1 / 10
  covdiff := 1
  bias := none
  step := 1
  blind := false
  results_energy := 0
  results_forces := []
  results_stress := [0, 0, 0, 0, 0, 0]

/-- The loop state after the first iteration (only the blind flag was
set); the loop then reproduces this state forever. -/
def s71 : LoopState ℚ := ⟨model7, cov7, some true, 0, 0, [], true⟩

theorem cov7_eq_kernMatrix : kernMatrix ext7 atoms7 [loc11] = cov7 := by decide

/-- C1 is false as stated: on this 7-atom, 2-species configuration with one
species unknown to the kernel, the greedy loop does not terminate within
`numAtoms` iterations — in fact it never terminates: `update_inducing`
exhausts any fuel, and the loop state reached after the first iteration is
a fixpoint of the loop body (the unknown-species candidate is re-selected
forever, no index is ever added). -/
theorem c1_counterexample :
    runLoop id ext7 (1 / 1000) (1 / 10) 1 atoms7 (atoms7.natoms + 1)
      (initLoop st7c) = none ∧
    update_inducing id ext7 (1 / 1000) st7c atoms7 = none ∧
    loopStep id ext7 (1 / 1000) (1 / 10) 1 atoms7 s71 = (Sum.inl s71, []) := by
  have hrange : List.range 7 = [0, 1, 2, 3, 4, 5, 6] := rfl
  have h0 : loopStep id ext7 (1 / 1000) (1 / 10) 1 atoms7 (initLoop st7c) =
      (Sum.inl s71, []) := by
    norm_num [loopStep, loopMark, loopPick, loopBeta, get_covloss, covloss_c, dot,
      argsortDesc, pickK, List.insertionSort, List.orderedInsert, isclose,
      Atoms.locEnv, Atoms.natoms, ext7, atoms7, initLoop, st7c, s71, cov7, model7, hrange]
  have h1 : loopStep id ext7 (1 / 1000) (1 / 10) 1 atoms7 s71 =
      (Sum.inl s71, []) := by
    norm_num [loopStep, loopMark, loopPick, loopBeta, get_covloss, covloss_c, dot,
      argsortDesc, pickK, List.insertionSort, List.orderedInsert, isclose,
      Atoms.locEnv, Atoms.natoms, ext7, atoms7, s71, cov7, model7, hrange]
  have hrun : ∀ n, runLoop id ext7 (1 / 1000) (1 / 10) 1 atoms7 n s71 = none := by
    intro n
    induction n with
    | zero => rfl
    | succ n ih =>
      simp only [runLoop, h1, ih]
      rfl
  have hrun0 : ∀ n, runLoop id ext7 (1 / 1000) (1 / 10) 1 atoms7 n (initLoop st7c) = none := by
    intro n
    cases n with
    | zero => rfl
    | succ n =>
      simp only [runLoop, h0, hrun n]
      rfl
  refine ⟨hrun0 _, ?_, h1⟩
  unfold update_inducing
  have he : st7c.ediff = 1 / 10 := rfl
  have hc : st7c.covdiff = 1 := rfl
  rw [he, hc, hrun0 _]
  rfl

/-- Witness for the amended C1 at a concrete one-atom known-species
instance. -/
theorem c1_update_inducing_terminates_witness :
    (Ext.WF extQ atomsQ ∧
      (∀ k, k < atomsQ.natoms → atomsQ.numbers.getD k 0 ∈ extQ.species) ∧
      stQ.cov.length = atomsQ.natoms) ∧
    ((∃ out, runLoop id extQ 1 stQ.ediff stQ.covdiff atomsQ (atomsQ.natoms + 1)
        (initLoop stQ) = some out ∧
      out.1.added_indices.Nodup ∧ out.1.added_indices.length ≤ atomsQ.natoms) ∧
    (update_inducing id extQ 1 stQ atomsQ).isSome) := by
  have hwf : Ext.WF extQ atomsQ := fun _ => rfl
  have hsp : ∀ k, k < atomsQ.natoms → atomsQ.numbers.getD k 0 ∈ extQ.species := by
    decide
  have hcov : stQ.cov.length = atomsQ.natoms := rfl
  exact ⟨⟨hwf, hsp, hcov⟩,
    c1_update_inducing_terminates id extQ 1 stQ atomsQ hwf hsp hcov⟩

/-! ### C7: bias accumulation -/

theorem zipWith_add_smul_map (u : List α) (c : α) :
    List.zipWith (· + ·) (u.map (fun v => c * v)) u = u.map (fun v => (c + 1) * v) := by
  induction u with
  | nil => rfl
  | cons a u ih => simp [ih, add_one_mul]

theorem zipWith_add_replicate_zero (v : List α) :
    List.zipWith (· + ·) (List.replicate v.length (0 : α)) v = v := by
  induction v with
  | nil => rfl
  | cons a v ih => simp [List.replicate_succ, ih]

theorem pad_1d_eq_self {a b : List α} (h : a.length = b.length) : pad_1d a b = a := by
  unfold pad_1d
  rw [h]
  simp

theorem dot_map_smul (w u : List α) (c : α) :
    dot w (u.map (fun v => c * v)) = c * dot w u := by
  induction u generalizing w with
  | nil => simp [dot]
  | cons a u ih =>
    cases w with
    | nil => simp [dot]
    | cons b w =>
      simp only [dot, List.map_cons, List.zipWith_cons_cons, List.sum_cons] at *
      rw [ih]
      ring

theorem sum_dot_smul (cov : List (List α)) (u : List α) (c : α) :
    (cov.map (fun r => dot r (u.map (fun v => c * v)))).sum =
      c * (cov.map (fun r => dot r u)).sum := by
  simp only [dot_map_smul]
  exact List.sum_map_mul_left _ _ _

theorem add_bias_fields (ext : Ext α) (st : CalcState α) (atoms : Atoms α) :
    (add_bias ext st atoms).1.cov = st.cov ∧
    (add_bias ext st atoms).1.model = st.model ∧
    (add_bias ext st atoms).1.bias = st.bias :=
  ⟨rfl, rfl, rfl⟩

theorem revisit_fields (ext : Ext α) (atoms : Atoms α) (st : CalcState α) :
    ∀ n, (revisitBias ext atoms n st).cov = st.cov ∧
      (revisitBias ext atoms n st).model = st.model ∧
      (revisitBias ext atoms n st).bias = st.bias := by
  intro n
  induction n with
  | zero => exact ⟨rfl, rfl, rfl⟩
  | succ n ih =>
    refine ⟨?_, ?_, ?_⟩
    · rw [show revisitBias ext atoms (n + 1) st =
        (add_bias ext (revisitBias ext atoms n st) atoms).1 from rfl]
      rw [(add_bias_fields _ _ _).1, ih.1]
    · rw [show revisitBias ext atoms (n + 1) st =
        (add_bias ext (revisitBias ext atoms n st) atoms).1 from rfl]
      rw [(add_bias_fields _ _ _).2.1, ih.2.1]
    · rw [show revisitBias ext atoms (n + 1) st =
        (add_bias ext (revisitBias ext atoms n st) atoms).1 from rfl]
      rw [(add_bias_fields _ _ _).2.2, ih.2.2]

theorem add_bias_pot (ext : Ext α) (st : CalcState α) (atoms : Atoms α) :
    (add_bias ext st atoms).1.bias_pot =
      some (List.zipWith (· + ·)
        (pad_1d (st.bias_pot.getD (List.replicate (covCols st.cov) 0))
          (biasMu st.model.mats.Mi st.cov))
        ((biasMu st.model.mats.Mi st.cov).map (fun v => st.bias.getD 0 * v))) := rfl

theorem add_bias_energy (ext : Ext α) (st : CalcState α) (atoms : Atoms α) :
    (add_bias ext st atoms).2.1 =
      (st.cov.map (fun row =>
        dot row ((add_bias ext st atoms).1.bias_pot.getD []))).sum := rfl

theorem biasMu_length (Mi cov : List (List α)) : (biasMu Mi cov).length = Mi.length :=
  List.length_map _ _

/-- Closed form of the accumulator after `n + 1` visits of the same
configuration starting from a fresh accumulator: `n + 1` copies of the
scaled mean response. -/
theorem revisit_pot_closed (ext : Ext α) (atoms : Atoms α) (st : CalcState α)
    (hMi : st.model.mats.Mi.length = covCols st.cov)
    (hpot : st.bias_pot = none) :
    ∀ n, (revisitBias ext atoms (n + 1) st).bias_pot =
      some (((biasMu st.model.mats.Mi st.cov).map (fun v => st.bias.getD 0 * v)).map
        (fun v => ((n + 1 : ℕ) : α) * v)) := by
  have hlen : (biasMu st.model.mats.Mi st.cov).length = covCols st.cov := by
    rw [biasMu_length, hMi]
  intro n
  induction n with
  | zero =>
    rw [show revisitBias ext atoms 1 st = (add_bias ext (revisitBias ext atoms 0 st) atoms).1
      from rfl]
    rw [show revisitBias ext atoms 0 st = st from rfl, add_bias_pot, hpot]
    rw [show (Option.getD (none : Option (List α)) (List.replicate (covCols st.cov) 0)) =
      List.replicate (covCols st.cov) 0 from rfl]
    rw [pad_1d_eq_self (by simp [hlen])]
    have hz := zipWith_add_replicate_zero
      ((biasMu st.model.mats.Mi st.cov).map (fun v => st.bias.getD 0 * v))
    rw [show ((biasMu st.model.mats.Mi st.cov).map (fun v => st.bias.getD 0 * v)).length =
      covCols st.cov from by simp [hlen]] at hz
    rw [hz]
    simp
  | succ n ih =>
    rw [show revisitBias ext atoms (n + 2) st =
      (add_bias ext (revisitBias ext atoms (n + 1) st) atoms).1 from rfl]
    rw [add_bias_pot, ih]
    obtain ⟨hc, hm, hb⟩ := revisit_fields ext atoms st (n + 1)
    rw [hc, hm, hb]
    rw [show (Option.getD (some (((biasMu st.model.mats.Mi st.cov).map
        (fun v => st.bias.getD 0 * v)).map (fun v => ((n + 1 : ℕ) : α) * v)))
        (List.replicate (covCols st.cov) 0)) =
      ((biasMu st.model.mats.Mi st.cov).map (fun v => st.bias.getD 0 * v)).map
        (fun v => ((n + 1 : ℕ) : α) * v) from rfl]
    rw [pad_1d_eq_self (by simp [hlen])]
    rw [zipWith_add_smul_map]
    rw [show ((n + 1 + 1 : ℕ) : α) = ((n + 1 : ℕ) : α) + 1 from by push_cast; ring]

/-- C7.  The bias accumulator is aligned with the covariance cache,
lazily created as zeros and never reset: on every visit the scaled
per-inducing-point mean response is added onto the zero-padded previous
accumulator, and revisiting the same configuration repeatedly produces a
non-decreasing bias-energy magnitude. -/
theorem c7_bias_accumulation (ext : Ext α) (atoms : Atoms α) (st : CalcState α)
    (hMi : st.model.mats.Mi.length = covCols st.cov)
    (hpot : st.bias_pot = none) :
    (∀ n, (revisitBias ext atoms (n + 1) st).bias_pot =
      some (List.zipWith (· + ·)
        (pad_1d ((revisitBias ext atoms n st).bias_pot.getD
            (List.replicate (covCols st.cov) 0))
          (biasMu st.model.mats.Mi st.cov))
        ((biasMu st.model.mats.Mi st.cov).map (fun v => st.bias.getD 0 * v)))) ∧
    (∀ n, ∃ p, (revisitBias ext atoms (n + 1) st).bias_pot = some p ∧
      p.length = covCols st.cov) ∧
    (∀ n, |(add_bias ext (revisitBias ext atoms n st) atoms).2.1| ≤
      |(add_bias ext (revisitBias ext atoms (n + 1) st) atoms).2.1|) := by
  have hlen : (biasMu st.model.mats.Mi st.cov).length = covCols st.cov := by
    rw [biasMu_length, hMi]
  have henergy : ∀ n, (add_bias ext (revisitBias ext atoms n st) atoms).2.1 =
      ((n + 1 : ℕ) : α) *
        (st.cov.map (fun r =>
          dot r ((biasMu st.model.mats.Mi st.cov).map
            (fun v => st.bias.getD 0 * v)))).sum := by
    intro n
    rw [add_bias_energy]
    obtain ⟨hc, -, -⟩ := revisit_fields ext atoms st n
    rw [hc]
    rw [show (add_bias ext (revisitBias ext atoms n st) atoms).1 =
      revisitBias ext atoms (n + 1) st from rfl]
    rw [revisit_pot_closed ext atoms st hMi hpot n]
    rw [show ∀ l : List α, (Option.getD (some l) []) = l from fun _ => rfl]
    exact sum_dot_smul _ _ _
  refine ⟨?_, ?_, ?_⟩
  · intro n
    rw [show revisitBias ext atoms (n + 1) st =
      (add_bias ext (revisitBias ext atoms n st) atoms).1 from rfl]
    rw [add_bias_pot]
    obtain ⟨hc, hm, hb⟩ := revisit_fields ext atoms st n
    rw [hc, hm, hb]
  · intro n
    refine ⟨_, revisit_pot_closed ext atoms st hMi hpot n, ?_⟩
    simp [hlen]
  · intro n
    rw [henergy n, henergy (n + 1)]
    rw [abs_mul, abs_mul]
    have h1 : |((n + 1 : ℕ) : α)| = ((n + 1 : ℕ) : α) := abs_of_nonneg (Nat.cast_nonneg _)
    have h2 : |((n + 1 + 1 : ℕ) : α)| = ((n + 1 + 1 : ℕ) : α) :=
      abs_of_nonneg (Nat.cast_nonneg _)
    rw [h1, h2]
    exact mul_le_mul_of_nonneg_right (Nat.cast_le.2 (by omega)) (abs_nonneg _)

/-- Witness for C7 at the concrete one-atom state with bias enabled and a
fresh accumulator. -/
theorem c7_bias_accumulation_witness :
    (stQ.model.mats.Mi.length = covCols stQ.cov ∧ stQ.bias_pot = none) ∧
    (∀ n, |(add_bias extQ (revisitBias extQ atomsQ n stQ) atomsQ).2.1| ≤
      |(add_bias extQ (revisitBias extQ atomsQ (n + 1) stQ) atomsQ).2.1|) :=
  ⟨⟨rfl, rfl⟩, (c7_bias_accumulation extQ atomsQ stQ rfl rfl).2.2⟩

/-! ### C2: cache/inducing-set alignment -/

/-- The cache-dimension invariant: every cache row has one entry per
inducing point. -/
def covAligned (cov : List (List α)) (X : List Loc) : Prop :=
  ∀ row ∈ cov, row.length = X.length

omit [LinearOrderedField α] in
theorem appendCol_mem {cov : List (List α)} {x : List α} {row : List α}
    (h : row ∈ appendCol cov x) : ∃ r ∈ cov, ∃ v ∈ x, row = r ++ [v] :=
  mem_zipWith_decomp h

theorem kernMatrix_aligned (ext : Ext α) (atoms : Atoms α) (X : List Loc) :
    covAligned (kernMatrix ext atoms X) X := by
  intro row hrow
  obtain ⟨i, _, hr⟩ := List.mem_map.1 hrow
  rw [← hr]
  exact List.length_map _ _

/-- Cache-extension dichotomy for one loop iteration: either nothing
changed, or the inducing set gained exactly one environment and the cache
gained exactly the corresponding kernel column, old columns untouched. -/
theorem loopStep_cache (sqrt : α → α) (ext : Ext α) (tiny ediff covdiff : α)
    (atoms : Atoms α) (s : LoopState α) :
    (∀ s1 evs, loopStep sqrt ext tiny ediff covdiff atoms s = (Sum.inr s1, evs) →
      s1.cov = s.cov ∧ s1.model.X = s.model.X ∧ s1.model.data = s.model.data) ∧
    (∀ s1 evs, loopStep sqrt ext tiny ediff covdiff atoms s = (Sum.inl s1, evs) →
      (s1.cov = s.cov ∧ s1.model.X = s.model.X ∧ s1.model.data = s.model.data) ∨
      (∃ loc, s1.model.X = s.model.X ++ [loc] ∧
        s1.cov = appendCol s.cov (ext.kernCol atoms loc) ∧
        s1.model.data = s.model.data)) := by
  by_cases hlen : s.added_indices.length = atoms.natoms
  · constructor
    · intro s1 evs heq
      unfold loopStep at heq
      rw [if_pos hlen] at heq
      injection heq with h1 h2
      injection h1 with h1
      rw [← h1]
      exact ⟨rfl, rfl, rfl⟩
    · intro s1 evs heq
      unfold loopStep at heq
      rw [if_pos hlen] at heq
      simp at heq
  · by_cases hsp : (atoms.locEnv (loopPick sqrt ext atoms s)).number ∈ ext.species
    · by_cases hβ : (loopBeta sqrt ext atoms s).getD (loopPick sqrt ext atoms s) 0 > covdiff
      · constructor
        · intro s1 evs heq
          simp only [loopStep, if_neg hlen] at heq
          rw [if_pos hsp, if_pos hβ] at heq
          simp at heq
        · intro s1 evs heq
          simp only [loopStep, if_neg hlen] at heq
          rw [if_pos hsp, if_pos hβ] at heq
          injection heq with h1 h2
          injection h1 with h1
          rw [← h1]
          right
          refine ⟨atoms.locEnv (loopPick sqrt ext atoms s), ?_, ?_, ?_⟩
          · simp [addInducing, loopMark_model]
          · rw [loopMark_cov]
          · simp [addInducing, loopMark_model]
      · rcases hres : add1inducing ext (loopMark sqrt ext atoms s).model
            (atoms.locEnv (loopPick sqrt ext atoms s))
            (loopEdiff tiny ediff (loopMark sqrt ext atoms s)) with ⟨added, m1⟩
        have hm1 : added = true →
            m1 = addInducing ext (loopMark sqrt ext atoms s).model
              (atoms.locEnv (loopPick sqrt ext atoms s)) := by
          intro ha
          unfold add1inducing at hres
          split at hres
          · injection hres with h1 h2
            exact h2.symm
          · injection hres with h1 h2
            rw [ha] at h1
            simp at h1
        cases added with
        | true =>
          constructor
          · intro s1 evs heq
            simp only [loopStep, if_neg hlen] at heq
            rw [if_pos hsp, if_neg hβ, hres] at heq
            split at heq
            · simp at heq
            · simp_all
          · intro s1 evs heq
            simp only [loopStep, if_neg hlen] at heq
            rw [if_pos hsp, if_neg hβ, hres] at heq
            split at heq
            · injection heq with h1 h2
              injection h1 with h1
              rw [← h1]
              right
              refine ⟨atoms.locEnv (loopPick sqrt ext atoms s), ?_, ?_, ?_⟩
              · simp [hm1 rfl, addInducing, loopMark_model]
              · rw [loopMark_cov]
              · simp [hm1 rfl, addInducing, loopMark_model]
            · simp_all
        | false =>
          constructor
          · intro s1 evs heq
            simp only [loopStep, if_neg hlen] at heq
            rw [if_pos hsp, if_neg hβ, hres] at heq
            split at heq
            · simp_all
            · injection heq with h1 h2
              injection h1 with h1
              rw [← h1, loopMark_cov, loopMark_model]
              exact ⟨rfl, rfl, rfl⟩
          · intro s1 evs heq
            simp only [loopStep, if_neg hlen] at heq
            rw [if_pos hsp, if_neg hβ, hres] at heq
            split at heq
            · simp_all
            · simp at heq
    · constructor
      · intro s1 evs heq
        simp only [loopStep, if_neg hlen] at heq
        rw [if_neg hsp] at heq
        simp at heq
      · intro s1 evs heq
        simp only [loopStep, if_neg hlen] at heq
        rw [if_neg hsp] at heq
        injection heq with h1 h2
        injection h1 with h1
        rw [← h1, loopMark_cov, loopMark_model]
        left
        exact ⟨rfl, rfl, rfl⟩

theorem loopStep_aligned (sqrt : α → α) (ext : Ext α) (tiny ediff covdiff : α)
    (atoms : Atoms α) (s : LoopState α) (hal : covAligned s.cov s.model.X) :
    (∀ s1 evs, loopStep sqrt ext tiny ediff covdiff atoms s = (Sum.inr s1, evs) →
      covAligned s1.cov s1.model.X) ∧
    (∀ s1 evs, loopStep sqrt ext tiny ediff covdiff atoms s = (Sum.inl s1, evs) →
      covAligned s1.cov s1.model.X) := by
  obtain ⟨hbrk, hcont⟩ := loopStep_cache sqrt ext tiny ediff covdiff atoms s
  constructor
  · intro s1 evs heq
    obtain ⟨hc, hX, -⟩ := hbrk s1 evs heq
    intro row hrow
    rw [hX]
    exact hal row (hc ▸ hrow)
  · intro s1 evs heq
    rcases hcont s1 evs heq with ⟨hc, hX, -⟩ | ⟨loc, hX, hc, -⟩
    · intro row hrow
      rw [hX]
      exact hal row (hc ▸ hrow)
    · intro row hrow
      rw [hc] at hrow
      obtain ⟨r, hr, v, _, hrv⟩ := appendCol_mem hrow
      rw [hX, hrv]
      simp [hal r hr]

theorem runLoop_aligned (sqrt : α → α) (ext : Ext α) (tiny ediff covdiff : α)
    (atoms : Atoms α) :
    ∀ fuel (s : LoopState α), covAligned s.cov s.model.X →
      ∀ out, runLoop sqrt ext tiny ediff covdiff atoms fuel s = some out →
        covAligned out.1.cov out.1.model.X := by
  intro fuel
  induction fuel with
  | zero =>
    intro s _ out hout
    simp [runLoop] at hout
  | succ fuel ih =>
    intro s hal out hout
    rcases hstep : loopStep sqrt ext tiny ediff covdiff atoms s with ⟨res, evs⟩
    obtain ⟨halr, hall⟩ := loopStep_aligned sqrt ext tiny ediff covdiff atoms s hal
    cases res with
    | inr s1 =>
      simp only [runLoop, hstep] at hout
      injection hout with hout
      rw [← hout]
      exact halr s1 evs hstep
    | inl s1 =>
      simp only [runLoop, hstep] at hout
      rcases hrec : runLoop sqrt ext tiny ediff covdiff atoms fuel s1 with _ | out1
      · rw [hrec] at hout
        simp at hout
      · rw [hrec] at hout
        injection hout with hout
        rw [← hout]
        exact ih s1 (hall s1 evs hstep) out1 hrec

/-- The greedy loop never touches the training set. -/
theorem runLoop_data (sqrt : α → α) (ext : Ext α) (tiny ediff covdiff : α)
    (atoms : Atoms α) :
    ∀ fuel (s : LoopState α) out,
      runLoop sqrt ext tiny ediff covdiff atoms fuel s = some out →
      out.1.model.data = s.model.data := by
  intro fuel
  induction fuel with
  | zero =>
    intro s out hout
    simp [runLoop] at hout
  | succ fuel ih =>
    intro s out hout
    rcases hstep : loopStep sqrt ext tiny ediff covdiff atoms s with ⟨res, evs⟩
    obtain ⟨hbrk, hcont⟩ := loopStep_cache sqrt ext tiny ediff covdiff atoms s
    cases res with
    | inr s1 =>
      simp only [runLoop, hstep] at hout
      injection hout with hout
      rw [← hout]
      exact (hbrk s1 evs hstep).2.2
    | inl s1 =>
      simp only [runLoop, hstep] at hout
      rcases hrec : runLoop sqrt ext tiny ediff covdiff atoms fuel s1 with _ | out1
      · rw [hrec] at hout
        simp at hout
      · rw [hrec] at hout
        injection hout with hout
        rw [← hout]
        rw [ih s1 out1 hrec]
        rcases hcont s1 evs hstep with ⟨-, -, hd⟩ | ⟨-, -, -, hd⟩ <;> exact hd

/-- A "compute" checkpoint records consistent shapes. -/
def computeOk (ev : Ev α) : Prop :=
  ∀ rows rl n, ev = Ev.compute rows rl n → ∀ l ∈ rl, l = n

omit [LinearOrderedField α] in
theorem computeOk_of_ne {ev : Ev α} (h : ∀ rows rl n, ev ≠ Ev.compute rows rl n) :
    computeOk ev := by
  intro rows rl n heq
  exact absurd heq (h rows rl n)

theorem grads_events (atoms : Atoms α) (rg cg : Option (List (List α))) :
    ∀ ev ∈ (grads atoms rg cg).2, ev = Ev.allReduce := by
  intro ev hev
  unfold grads at hev
  rcases atoms.is_distributed with _ | _ <;> simp_all

theorem get_covloss_events (sqrt : α → α) (ext : Ext α) (atoms : Atoms α)
    (m : Model α) (cov : List (List α)) (flag : Option Bool) :
    ∀ ev ∈ (get_covloss sqrt ext atoms m cov flag).2.2, ev = Ev.allReduce := by
  intro ev hev
  unfold get_covloss at hev
  rcases hdist : atoms.is_distributed with _ | _ <;>
    rcases flag with _ | (_ | _) <;>
      simp [hdist] at hev <;> exact hev

theorem loopStep_events (sqrt : α → α) (ext : Ext α) (tiny ediff covdiff : α)
    (atoms : Atoms α) (s : LoopState α) :
    ∀ ev ∈ (loopStep sqrt ext tiny ediff covdiff atoms s).2,
      ev = Ev.allReduce ∨ (∃ loc, ev = Ev.addInducing loc) ∨
        ∃ loc t a, ev = Ev.add1 loc t a := by
  intro ev hev
  have hcov := get_covloss_events sqrt ext atoms s.model s.cov s.normalized
  simp only [loopStep] at hev
  split at hev
  · simp at hev
  · split at hev
    · split at hev
      · dsimp only at hev
        simp only [List.mem_append, List.mem_singleton] at hev
        rcases hev with h | h
        · exact Or.inl (hcov ev h)
        · exact Or.inr (Or.inl ⟨_, h⟩)
      · split at hev
        · dsimp only at hev
          simp only [List.mem_append, List.mem_singleton] at hev
          rcases hev with h | h
          · exact Or.inl (hcov ev h)
          · exact Or.inr (Or.inr ⟨_, _, _, h⟩)
        · dsimp only at hev
          simp only [List.mem_append, List.mem_singleton] at hev
          rcases hev with h | h
          · exact Or.inl (hcov ev h)
          · exact Or.inr (Or.inr ⟨_, _, _, h⟩)
    · dsimp only at hev
      exact Or.inl (hcov ev hev)

theorem runLoop_events (sqrt : α → α) (ext : Ext α) (tiny ediff covdiff : α)
    (atoms : Atoms α) :
    ∀ fuel (s : LoopState α) out,
      runLoop sqrt ext tiny ediff covdiff atoms fuel s = some out →
      ∀ ev ∈ out.2, ev = Ev.allReduce ∨ (∃ loc, ev = Ev.addInducing loc) ∨
        ∃ loc t a, ev = Ev.add1 loc t a := by
  intro fuel
  induction fuel with
  | zero =>
    intro s out hout
    simp [runLoop] at hout
  | succ fuel ih =>
    intro s out hout
    rcases hstep : loopStep sqrt ext tiny ediff covdiff atoms s with ⟨res, evs⟩
    have hevs : ∀ ev ∈ evs, ev = Ev.allReduce ∨ (∃ loc, ev = Ev.addInducing loc) ∨
        ∃ loc t a, ev = Ev.add1 loc t a := by
      intro ev hev
      exact loopStep_events sqrt ext tiny ediff covdiff atoms s ev (by rw [hstep]; exact hev)
    cases res with
    | inr s1 =>
      simp only [runLoop, hstep] at hout
      injection hout with hout
      rw [← hout]
      exact hevs
    | inl s1 =>
      simp only [runLoop, hstep] at hout
      rcases hrec : runLoop sqrt ext tiny ediff covdiff atoms fuel s1 with _ | out1
      · rw [hrec] at hout
        simp at hout
      · rw [hrec] at hout
        injection hout with hout
        rw [← hout]
        intro ev hev
        rcases List.mem_append.1 hev with h | h
        · exact hevs ev h
        · exact ih s1 out1 hrec ev h

theorem update_inducing_shape (sqrt : α → α) (ext : Ext α) (tiny : α)
    (st : CalcState α) (atoms : Atoms α) :
    ∀ st1 m evs, update_inducing sqrt ext tiny st atoms = some (st1, m, evs) →
      (covAligned st.cov st.model.X → covAligned st1.cov st1.model.X) ∧
      st1.model.data = st.model.data ∧
      st1.results_energy = st.results_energy ∧
      st1.results_forces = st.results_forces ∧
      st1.ediff = st.ediff ∧ st1.fdiff = st.fdiff ∧ st1.bias = st.bias ∧
      st1.bias_pot = st.bias_pot ∧
      (∀ ev ∈ evs, ev = Ev.allReduce ∨ (∃ loc, ev = Ev.addInducing loc) ∨
        ∃ loc t a, ev = Ev.add1 loc t a) := by
  intro st1 m evs hout
  unfold update_inducing at hout
  rcases hrun : runLoop sqrt ext tiny st.ediff st.covdiff atoms (atoms.natoms + 3)
      (initLoop st) with _ | out
  · rw [hrun] at hout
    simp at hout
  · rw [hrun] at hout
    injection hout with hout
    injection hout with h1 h2
    injection h2 with h2 h3
    constructor
    · intro hal
      rw [← h1]
      exact runLoop_aligned sqrt ext tiny st.ediff st.covdiff atoms _ _ hal out hrun
    · refine ⟨?_, ?_, ?_, ?_, ?_, ?_, ?_, ?_⟩
      · rw [← h1]
        exact runLoop_data sqrt ext tiny st.ediff st.covdiff atoms _ _ out hrun
      · rw [← h1]
      · rw [← h1]
      · rw [← h1]
      · rw [← h1]
      · rw [← h1]
      · rw [← h1]
      · rw [← h3]
        exact runLoop_events sqrt ext tiny st.ediff st.covdiff atoms _ _ out hrun

omit [LinearOrderedField α] in
theorem add1atoms_X (ext : Ext α) (m : Model α) (conf : Conf α) (e f : α) :
    (add1atoms ext m conf e f).X = m.X := by
  unfold add1atoms
  split <;> rfl

omit [LinearOrderedField α] in
theorem head_X (ext : Ext α) (m : Model α) : (head ext m).1.X = m.X := by
  unfold head
  rcases m.data.getLast? with _ | last <;> rfl

omit [LinearOrderedField α] in
theorem head_events (ext : Ext α) (m : Model α) :
    ∀ ev ∈ (head ext m).2, ev = Ev.fetchExact ∨ ev = Ev.overwrite ∨ ev = Ev.makeMunu := by
  intro ev hev
  unfold head at hev
  rcases hl : m.data.getLast? with _ | last
  · rw [hl] at hev
    simp at hev
  · rw [hl] at hev
    simp at hev
    exact hev

omit [LinearOrderedField α] in
theorem snapshot_events (ext : Ext α) (st : CalcState α) (atoms : Atoms α) (fake : Bool) :
    ∀ ev ∈ (snapshot ext st atoms fake).2,
      ev = Ev.fetchExact ∨ ∃ fa e, ev = Ev.snapshot fa e := by
  intro ev hev
  unfold snapshot at hev
  cases fake <;> simp at hev
  · rcases hev with h | h
    · exact Or.inl h
    · exact Or.inr ⟨_, _, h⟩
  · exact Or.inr ⟨_, _, hev⟩

omit [LinearOrderedField α] in
theorem update_data_shape (ext : Ext α) (st : CalcState α) (atoms : Atoms α) (f : Bool) :
    (update_data ext st atoms f).1.cov = st.cov ∧
    (update_data ext st atoms f).1.model.X = st.model.X ∧
    ∀ ev ∈ (update_data ext st atoms f).2.2,
      ev = Ev.fetchExact ∨ ev = Ev.overwrite ∨ ev = Ev.makeMunu ∨
        ∃ fa e, ev = Ev.snapshot fa e := by
  have hsnap := snapshot_events ext st atoms f
  simp only [update_data]
  split
  · split
    · refine ⟨rfl, ?_, ?_⟩
      · show (head ext (add1atoms ext st.model (snapshot ext st atoms f).1
          st.ediff st.fdiff)).1.X = st.model.X
        rw [head_X, add1atoms_X]
      · intro ev hev
        rcases List.mem_append.1 hev with h | h
        · rcases hsnap ev h with h1 | ⟨fa, e, h1⟩
          · exact Or.inl h1
          · exact Or.inr (Or.inr (Or.inr ⟨fa, e, h1⟩))
        · rcases head_events ext _ ev h with h1 | h1 | h1
          · exact Or.inl h1
          · exact Or.inr (Or.inl h1)
          · exact Or.inr (Or.inr (Or.inl h1))
    · refine ⟨rfl, ?_, ?_⟩
      · show (add1atoms ext st.model (snapshot ext st atoms f).1
          st.ediff st.fdiff).X = st.model.X
        rw [add1atoms_X]
      · intro ev hev
        rcases hsnap ev hev with h1 | ⟨fa, e, h1⟩
        · exact Or.inl h1
        · exact Or.inr (Or.inr (Or.inr ⟨fa, e, h1⟩))
  · refine ⟨rfl, ?_, ?_⟩
    · show (add1atoms ext st.model (snapshot ext st atoms f).1
        st.ediff st.fdiff).X = st.model.X
      rw [add1atoms_X]
    · intro ev hev
      rcases hsnap ev hev with h1 | ⟨fa, e, h1⟩
      · exact Or.inl h1
      · exact Or.inr (Or.inr (Or.inr ⟨fa, e, h1⟩))

theorem initiate_events (ext : Ext α) (st : CalcState α) (atoms : Atoms α) :
    ∀ ev ∈ (initiate_model ext st atoms).2,
      ev = Ev.bootstrap ∨ ev = Ev.fetchExact ∨ (∃ fa e, ev = Ev.snapshot fa e) ∨
        ∃ l t a, ev = Ev.add1 l t a := by
  have hfold : ∀ (l : List ℕ) (acc : Model α × List (Ev α)),
      (∀ ev ∈ acc.2, ∃ lc t a, ev = Ev.add1 lc t a) →
      ∀ ev ∈ (l.foldl (fun acc j =>
          if j ∈ first_of_each_atom_type atoms.numbers then acc
          else
            ((add1inducing ext acc.1 (atoms.locEnv j) st.ediff).2,
              acc.2 ++ [Ev.add1 (atoms.locEnv j) st.ediff
                (add1inducing ext acc.1 (atoms.locEnv j) st.ediff).1])) acc).2,
        ∃ lc t a, ev = Ev.add1 lc t a := by
    intro l
    induction l with
    | nil => intro acc hacc ev hev; exact hacc ev hev
    | cons j l ih =>
      intro acc hacc ev hev
      simp only [List.foldl_cons] at hev
      refine ih _ ?_ ev hev
      split
      · exact hacc
      · intro ev1 hev1
        rcases List.mem_append.1 hev1 with h | h
        · exact hacc ev1 h
        · simp at h
          exact ⟨_, _, _, h⟩
  intro ev hev
  unfold initiate_model at hev
  simp only [List.append_assoc, List.mem_append] at hev
  rcases hev with h | h | h
  · rcases snapshot_events ext st atoms false ev h with h1 | ⟨fa, e, h1⟩
    · exact Or.inr (Or.inl h1)
    · exact Or.inr (Or.inr (Or.inl ⟨fa, e, h1⟩))
  · simp at h
    exact Or.inl h
  · exact Or.inr (Or.inr (Or.inr (hfold _ _ (by intro ev1 hev1; simp at hev1) ev h)))

theorem calculate_results_events (ext : Ext α) (st : CalcState α) (atoms : Atoms α) :
    ∀ ev ∈ (calculate_results ext st atoms).2.2,
      ev = Ev.compute st.cov.length (st.cov.map List.length) st.model.X.length ∨
        ev = Ev.allReduce := by
  intro ev hev
  unfold calculate_results at hev
  simp only [List.append_assoc, List.mem_append] at hev
  rcases hev with h | h | h
  · simp at h
    exact Or.inl h
  · rcases atoms.is_distributed with _ | _ <;> simp_all
  · exact Or.inr (grads_events atoms _ _ ev h)

theorem add_bias_events (ext : Ext α) (st : CalcState α) (atoms : Atoms α) :
    ∀ ev ∈ (add_bias ext st atoms).2.2,
      ev = Ev.compute st.cov.length (st.cov.map List.length) st.model.X.length ∨
        ev = Ev.allReduce := by
  intro ev hev
  unfold add_bias at hev
  simp only [List.append_assoc, List.mem_append] at hev
  rcases hev with h | h
  · rcases atoms.is_distributed with _ | _ <;> simp_all
  · rcases h with h1 | h1
    · simp at h1
      rcases h1 with h1 | h1
      · exact Or.inl h1
      · exact Or.inr h1
    · exact Or.inr (grads_events atoms _ _ ev h1)

omit [LinearOrderedField α] in
theorem compute_event_ok {cov : List (List α)} {X : List Loc}
    (hal : covAligned cov X) :
    computeOk (Ev.compute cov.length (cov.map List.length) X.length : Ev α) := by
  intro rows rl n heq
  cases heq
  intro l hl
  obtain ⟨row, hrow, hlen⟩ := List.mem_map.1 hl
  rw [← hlen]
  exact hal row hrow

theorem calculate_results_fields (ext : Ext α) (st : CalcState α) (atoms : Atoms α) :
    (calculate_results ext st atoms).1.cov = st.cov ∧
    (calculate_results ext st atoms).1.model = st.model :=
  ⟨rfl, rfl⟩

/-- Shape of an event emitted by the selector round. -/
def selectorEv (ev : Ev α) : Prop :=
  ev = Ev.allReduce ∨ (∃ l, ev = Ev.addInducing l) ∨ (∃ l t a, ev = Ev.add1 l t a) ∨
    ev = Ev.fetchExact ∨ ev = Ev.overwrite ∨ ev = Ev.makeMunu ∨
    ∃ fa e, ev = Ev.snapshot fa e

theorem update_shape (sqrt : α → α) (ext : Ext α) (tiny : α) (st : CalcState α)
    (atoms : Atoms α) :
    ∀ st1 m n evs, update sqrt ext tiny st atoms = some (st1, m, n, evs) →
      (covAligned st.cov st.model.X → covAligned st1.cov st1.model.X) ∧
      ∀ ev ∈ evs, selectorEv ev := by
  intro st1 m n evs heq
  unfold update at heq
  rcases hui : update_inducing sqrt ext tiny st atoms with _ | uo
  · rw [hui] at heq
    simp at heq
  · rw [hui] at heq
    simp only [Option.map] at heq
    rcases uo with ⟨stu, mu, evu⟩
    obtain ⟨halu, -, -, -, -, -, -, -, hevu⟩ :=
      update_inducing_shape sqrt ext tiny st atoms stu mu evu hui
    have hloopshape : ∀ ev ∈ evu, selectorEv ev := by
      intro ev hev
      rcases hevu ev hev with h | ⟨l, h⟩ | ⟨l, t, a, h⟩
      · exact Or.inl h
      · exact Or.inr (Or.inl ⟨l, h⟩)
      · exact Or.inr (Or.inr (Or.inl ⟨l, t, a, h⟩))
    split at heq
    · injection heq with heq
      injection heq with h1 heq
      injection heq with h2 heq
      injection heq with h3 h4
      obtain ⟨hdc, hdX, hdev⟩ := update_data_shape ext stu atoms (! stu.blind)
      constructor
      · intro hal
        rw [← h1]
        intro row hrow
        rw [hdX]
        rw [hdc] at hrow
        exact halu hal row hrow
      · intro ev hev
        rw [← h4] at hev
        rcases List.mem_append.1 hev with h | h
        · exact hloopshape ev h
        · rcases hdev ev h with h1 | h1 | h1 | ⟨fa, e, h1⟩
          · exact Or.inr (Or.inr (Or.inr (Or.inl h1)))
          · exact Or.inr (Or.inr (Or.inr (Or.inr (Or.inl h1))))
          · exact Or.inr (Or.inr (Or.inr (Or.inr (Or.inr (Or.inl h1)))))
          · exact Or.inr (Or.inr (Or.inr (Or.inr (Or.inr (Or.inr ⟨fa, e, h1⟩)))))
    · injection heq with heq
      injection heq with h1 heq
      injection heq with h2 heq
      injection heq with h3 h4
      constructor
      · intro hal
        rw [← h1]
        exact halu hal
      · intro ev hev
        rw [← h4] at hev
        exact hloopshape ev hev

theorem calculate_results_bias (ext : Ext α) (st : CalcState α) (atoms : Atoms α) :
    (calculate_results ext st atoms).1.bias = st.bias := rfl

set_option maxHeartbeats 1000000 in
/-- C2.  At every point where energy/forces/stress are computed from the
covariance cache (every `compute` checkpoint that one step of `calculate`
emits, including the recomputation after growth and the bias evaluation),
the number of cache columns equals the current inducing-set size; and each
successful inducing-point add of the greedy loop extends the cache by
exactly one new column, computed as the kernel column between the unchanged
configuration and the new point only, with the existing columns kept
as they are. -/
theorem c2_cache_alignment (sqrt : α → α) (ext : Ext α) (tiny : α) (st : CalcState α)
    (atoms : Atoms α) :
    (∀ st1 evs, calculate sqrt ext tiny st atoms = some (st1, evs) →
      ∀ ev ∈ evs, computeOk ev) ∧
    (∀ s s1 evs, loopStep sqrt ext tiny st.ediff st.covdiff atoms s = (Sum.inl s1, evs) →
      s1.model.X ≠ s.model.X →
      ∃ loc, s1.model.X = s.model.X ++ [loc] ∧
        s1.cov = appendCol s.cov (ext.kernCol atoms loc)) := by
  constructor
  · intro st1 evs heq ev hev
    simp only [calculate] at heq
    split at heq
    · -- bootstrap branch
      simp only [Option.map_some] at heq
      injection heq with h1
      injection h1 with hst hevs
      rw [← hevs] at hev
      simp only [lt_self_iff_false, or_self, if_false, List.mem_append,
        List.not_mem_nil, or_false, false_or] at hev
      rw [calculate_results_bias] at hev
      dsimp only at hev
      have hal : covAligned (kernMatrix ext atoms (initiate_model ext st atoms).1.X)
          (initiate_model ext st atoms).1.X := kernMatrix_aligned ext atoms _
      rcases hbias : st.bias with _ | b
      · rw [hbias] at hev
        dsimp only at hev
        simp only [List.not_mem_nil, or_false] at hev
        rcases hev with h | h
        · rcases initiate_events ext st atoms ev h with h1 | h1 | ⟨fa, e, h1⟩ | ⟨l, t, a, h1⟩ <;>
            subst h1 <;> intro rows rl n hc <;> simp at hc
        · rcases calculate_results_events ext _ atoms ev h with h1 | h1
          · subst h1
            exact compute_event_ok hal
          · subst h1
            intro rows rl n hc
            simp at hc
      · rw [hbias] at hev
        dsimp only at hev
        rcases hev with (h | h) | h
        · rcases initiate_events ext st atoms ev h with h1 | h1 | ⟨fa, e, h1⟩ | ⟨l, t, a, h1⟩ <;>
            subst h1 <;> intro rows rl n hc <;> simp at hc
        · rcases calculate_results_events ext _ atoms ev h with h1 | h1
          · subst h1
            exact compute_event_ok hal
          · subst h1
            intro rows rl n hc
            simp at hc
        · rcases add_bias_events ext _ atoms ev h with h1 | h1
          · subst h1
            exact compute_event_ok hal
          · subst h1
            intro rows rl n hc
            simp at hc
    · -- regular step
      rcases hupd : update sqrt ext tiny
          (calculate_results ext
            { st with cov := kernMatrix ext atoms st.model.X } atoms).1 atoms
        with _ | out
      · rw [hupd] at heq
        simp at heq
      · rw [hupd] at heq
        simp only [Option.map] at heq
        injection heq with h1
        injection h1 with hst hevs
        rw [← hevs] at hev
        rcases out with ⟨outst, m, n, uevs⟩
        dsimp only at hev
        obtain ⟨halupd, huevs⟩ := update_shape sqrt ext tiny _ atoms outst m n uevs hupd
        have halout : covAligned outst.cov outst.model.X :=
          halupd (kernMatrix_aligned ext atoms st.model.X)
        have hcompOk : ∀ (st0 : CalcState α), covAligned st0.cov st0.model.X →
            ∀ ev1 ∈ (calculate_results ext st0 atoms).2.2, computeOk ev1 := by
          intro st0 hal0 ev1 hev1
          rcases calculate_results_events ext st0 atoms ev1 hev1 with h1 | h1
          · subst h1
            exact compute_event_ok hal0
          · subst h1
            intro rows rl n hc
            simp at hc
        have hbiasOk : ∀ (st0 : CalcState α), covAligned st0.cov st0.model.X →
            ∀ ev1 ∈ (add_bias ext st0 atoms).2.2, computeOk ev1 := by
          intro st0 hal0 ev1 hev1
          rcases add_bias_events ext st0 atoms ev1 hev1 with h1 | h1
          · subst h1
            exact compute_event_ok hal0
          · subst h1
            intro rows rl n hc
            simp at hc
        have huevsOk : ∀ ev1 ∈ uevs, computeOk ev1 := by
          intro ev1 hev1
          rcases huevs ev1 hev1 with h1 | ⟨l, h1⟩ | ⟨l, t, a, h1⟩ | h1 | h1 | h1 | ⟨fa, e, h1⟩ <;>
            subst h1 <;> intro rows rl n hc <;> simp at hc
        have hal1 : covAligned (kernMatrix ext atoms st.model.X) st.model.X :=
          kernMatrix_aligned ext atoms st.model.X
        by_cases hmn : 0 < m ∨ 0 < n
        · rw [if_pos hmn] at hev
          rw [calculate_results_bias] at hev
          rcases hb : outst.bias with _ | b
          · rw [hb] at hev
            dsimp only at hev
            simp only [List.nil_append, List.mem_append, List.mem_cons,
              List.not_mem_nil, or_false] at hev
            rcases hev with (h | h | h) | h
            · exact hcompOk _ hal1 ev h
            · subst h
              intro rows rl n hc
              simp at hc
            · exact huevsOk ev h
            · exact hcompOk _ halout ev h
          · rw [hb] at hev
            dsimp only at hev
            simp only [List.nil_append, List.mem_append, List.mem_cons] at hev
            rcases hev with ((h | h | h) | h) | h
            · exact hcompOk _ hal1 ev h
            · subst h
              intro rows rl n hc
              simp at hc
            · exact huevsOk ev h
            · exact hcompOk _ halout ev h
            · exact hbiasOk _ halout ev h
        · rw [if_neg hmn] at hev
          dsimp only at hev
          rcases hb : outst.bias with _ | b
          · rw [hb] at hev
            dsimp only at hev
            simp only [List.nil_append, List.append_nil, List.mem_append, List.mem_cons,
              List.not_mem_nil, or_false] at hev
            rcases hev with h | h | h
            · exact hcompOk _ hal1 ev h
            · subst h
              intro rows rl n hc
              simp at hc
            · exact huevsOk ev h
          · rw [hb] at hev
            dsimp only at hev
            simp only [List.nil_append, List.append_nil, List.mem_append, List.mem_cons,
              List.not_mem_nil, or_false] at hev
            rcases hev with (h | h | h) | h
            · exact hcompOk _ hal1 ev h
            · subst h
              intro rows rl n hc
              simp at hc
            · exact huevsOk ev h
            · exact hbiasOk _ halout ev h
  · intro s s1 evs hstep hXne
    rcases (loopStep_cache sqrt ext tiny st.ediff st.covdiff atoms s).2 s1 evs hstep with
      ⟨hc, hX, -⟩ | ⟨loc, hX, hc, -⟩
    · exact absurd hX hXne
    · exact ⟨loc, hX, hc⟩

/-- The empty configuration over the rationals. -/
def atoms0 : Atoms ℚ := ⟨[], [], [], none, false⟩

/-- A fresh calculator state (first step, empty model). -/
def stF : CalcState ℚ where
  model := ⟨[], [], ⟨[], [], []⟩⟩
  cov := []
  normalized := none
  bias_pot := none
  ediff := 1
  fdiff := 1
  covdiff := 1
  bias := none
  step := 0
  blind := false
  results_energy := 0
  results_forces := []
  results_stress := [0, 0, 0, 0, 0, 0]

/-- The calculator state after one bootstrap step on the empty
configuration. -/
def c2st : CalcState ℚ where
  model := ⟨[], [⟨atoms0, 0, []⟩], ⟨[[1]], [[1]], [1]⟩⟩
  cov := []
  normalized := none
  bias_pot := none
  ediff := 1
  fdiff := 1
  covdiff := 1
  bias := none
  step := 1
  blind := false
  results_energy := 0
  results_forces := []
  results_stress := [0, 0, 0, 0, 0, 0]

/-- The event trace of that bootstrap step. -/
def c2evs : List (Ev ℚ) :=
  [Ev.fetchExact, Ev.snapshot false 0, Ev.bootstrap, Ev.compute 0 [] 0]

/-- A one-candidate state whose covariance-loss threshold `-1` forces an
uncertainty-path add. -/
def stW : CalcState ℚ := { stQ with covdiff := -1 }

/-- The loop state after that add: one new inducing point, one new cache
column. -/
def sW1 : LoopState ℚ :=
  ⟨⟨[⟨1, 0⟩, ⟨1, 0⟩], [], ⟨[[1]], [[1]], [1]⟩⟩, [[1, 1]], some true, 1, 0, [0], false⟩

/-- Witness for C2: a concrete bootstrap step whose compute checkpoints are
all aligned, and a concrete loop iteration that extends the cache by
exactly the new point's kernel column. -/
theorem c2_cache_alignment_witness :
    (calculate id extQ 1 stF atoms0 = some (c2st, c2evs) ∧
      ∀ ev ∈ c2evs, computeOk ev) ∧
    (loopStep id extQ 1 stW.ediff stW.covdiff atomsQ sQ =
        (Sum.inl sW1, [Ev.addInducing ⟨1, 0⟩]) ∧
      sW1.model.X ≠ sQ.model.X ∧
      ∃ loc, sW1.model.X = sQ.model.X ++ [loc] ∧
        sW1.cov = appendCol sQ.cov (extQ.kernCol atomsQ loc)) := by
  have hr3 : List.range 3 = [0, 1, 2] := rfl
  have hr0 : List.range 0 = ([] : List ℕ) := rfl
  have hcalc : calculate id extQ 1 stF atoms0 = some (c2st, c2evs) := by
    norm_num [calculate, initiate_model, snapshot, setData, first_of_each_atom_type,
      kernMatrix, calculate_results, grads, gradForces, gradCell, gradStress1,
      gradStress2, outerSum, matNeg, matAdd, matDiv, voigt, volumeFactor, dot,
      Atoms.natoms, extQ, stF, atoms0, c2st, c2evs, hr3, hr0]
  have hstep : loopStep id extQ 1 stW.ediff stW.covdiff atomsQ sQ =
      (Sum.inl sW1, [Ev.addInducing ⟨1, 0⟩]) := by
    norm_num [loopStep, loopMark, loopPick, loopBeta, get_covloss, covloss_c, dot,
      argsortDesc, pickK, List.insertionSort, List.orderedInsert, isclose,
      addInducing, appendCol, Atoms.locEnv, Atoms.natoms, extQ, atomsQ, stW, stQ,
      sQ, sW1]
  have hne : sW1.model.X ≠ sQ.model.X := by decide
  exact ⟨⟨hcalc, (c2_cache_alignment id extQ 1 stF atoms0).1 c2st c2evs hcalc⟩,
    hstep, hne, (c2_cache_alignment id extQ 1 stW atomsQ).2 sQ sW1 _ hstep hne⟩

/-! ### C5: bootstrap -/

omit [LinearOrderedField α] in
theorem foea_lt {numbers : List ℤ} :
    ∀ j ∈ first_of_each_atom_type numbers, j < numbers.length := by
  intro j hj
  unfold first_of_each_atom_type at hj
  exact List.mem_range.1 (List.mem_filter.1 hj).1

omit [LinearOrderedField α] in
theorem foea_not_before {numbers : List ℤ} {j : ℕ}
    (hj : j ∈ first_of_each_atom_type numbers) :
    numbers.getD j 0 ∉ numbers.take j := by
  unfold first_of_each_atom_type at hj
  have := (List.mem_filter.1 hj).2
  simpa using this

omit [LinearOrderedField α] in
theorem mem_take_of_lt {numbers : List ℤ} {j k : ℕ} (hjk : j < k)
    (hj : j < numbers.length) : numbers.getD j 0 ∈ numbers.take k := by
  have h1 : j < (numbers.take k).length := by
    simp
    omega
  have h2 : (numbers.take k)[j] = numbers[j] := List.getElem_take ..
  rw [List.getD_eq_getElem numbers 0 hj, ← h2]
  exact List.getElem_mem h1

omit [LinearOrderedField α] in
theorem foea_inj {numbers : List ℤ} :
    ∀ j1 ∈ first_of_each_atom_type numbers, ∀ j2 ∈ first_of_each_atom_type numbers,
      numbers.getD j1 0 = numbers.getD j2 0 → j1 = j2 := by
  intro j1 h1 j2 h2 hz
  rcases lt_trichotomy j1 j2 with h | h | h
  · exact absurd (hz ▸ mem_take_of_lt h (foea_lt j1 h1)) (foea_not_before h2)
  · exact h
  · exact absurd (hz ▸ mem_take_of_lt h (foea_lt j2 h2)) (foea_not_before h1)

omit [LinearOrderedField α] in
theorem foea_cover_aux {numbers : List ℤ} :
    ∀ k, k < numbers.length →
      ∃ j ∈ first_of_each_atom_type numbers, numbers.getD j 0 = numbers.getD k 0 := by
  intro k
  induction k using Nat.strong_induction_on with
  | _ k ih =>
    intro hk
    by_cases hp : numbers.getD k 0 ∈ numbers.take k
    · obtain ⟨m, hm, hmk⟩ := List.getElem_of_mem hp
      have hmlt : m < k := by
        have := hm
        simp at this
        omega
      have hmlen : m < numbers.length := by
        have := hm
        simp at this
        omega
      have hval : numbers.getD m 0 = numbers.getD k 0 := by
        have h2 : (numbers.take k)[m] = numbers[m] := List.getElem_take ..
        rw [List.getD_eq_getElem numbers 0 hmlen, ← h2]
        exact hmk
      obtain ⟨j, hj, hjv⟩ := ih m hmlt hmlen
      exact ⟨j, hj, by rw [hjv, hval]⟩
    · refine ⟨k, ?_, rfl⟩
      unfold first_of_each_atom_type
      rw [List.mem_filter]
      exact ⟨List.mem_range.2 hk, by simpa using hp⟩

omit [LinearOrderedField α] in
theorem foea_cover {numbers : List ℤ} :
    ∀ z ∈ numbers, ∃ j ∈ first_of_each_atom_type numbers, numbers.getD j 0 = z := by
  intro z hz
  obtain ⟨k, hk, hkz⟩ := List.getElem_of_mem hz
  obtain ⟨j, hj, hjv⟩ := foea_cover_aux k hk
  exact ⟨j, hj, by rw [hjv, List.getD_eq_getElem numbers 0 hk, hkz]⟩

omit [LinearOrderedField α] in
theorem foea_species_mem {numbers : List ℤ} :
    ∀ j ∈ first_of_each_atom_type numbers, numbers.getD j 0 ∈ numbers := by
  intro j hj
  have h := foea_lt j hj
  rw [List.getD_eq_getElem numbers 0 h]
  exact List.getElem_mem h

/-- Project an event onto the environment/threshold of an attempted
`add_1inducing` call. -/
def add1Proj : Ev α → Option (Loc × α)
  | Ev.add1 l t _ => some (l, t)
  | _ => none

theorem add1inducing_data (ext : Ext α) (m : Model α) (loc : Loc) (t : α) :
    (add1inducing ext m loc t).2.data = m.data := by
  unfold add1inducing addInducing
  split <;> rfl

theorem add1inducing_X (ext : Ext α) (m : Model α) (loc : Loc) (t : α) :
    ∃ extra, (add1inducing ext m loc t).2.X = m.X ++ extra := by
  unfold add1inducing addInducing
  split
  · exact ⟨[loc], rfl⟩
  · exact ⟨[], by simp⟩

theorem initiate_fold_spec (ext : Ext α) (st : CalcState α) (atoms : Atoms α) :
    ∀ (l : List ℕ) (acc : Model α × List (Ev α)),
      (l.foldl (fun acc j =>
          if j ∈ first_of_each_atom_type atoms.numbers then acc
          else
            ((add1inducing ext acc.1 (atoms.locEnv j) st.ediff).2,
              acc.2 ++ [Ev.add1 (atoms.locEnv j) st.ediff
                (add1inducing ext acc.1 (atoms.locEnv j) st.ediff).1])) acc).2.filterMap
          add1Proj =
        acc.2.filterMap add1Proj ++
          (l.filter (fun j => ¬ j ∈ first_of_each_atom_type atoms.numbers)).map
            (fun j => (atoms.locEnv j, st.ediff)) ∧
      (l.foldl (fun acc j =>
          if j ∈ first_of_each_atom_type atoms.numbers then acc
          else
            ((add1inducing ext acc.1 (atoms.locEnv j) st.ediff).2,
              acc.2 ++ [Ev.add1 (atoms.locEnv j) st.ediff
                (add1inducing ext acc.1 (atoms.locEnv j) st.ediff).1])) acc).1.data =
        acc.1.data ∧
      ∃ extra, (l.foldl (fun acc j =>
          if j ∈ first_of_each_atom_type atoms.numbers then acc
          else
            ((add1inducing ext acc.1 (atoms.locEnv j) st.ediff).2,
              acc.2 ++ [Ev.add1 (atoms.locEnv j) st.ediff
                (add1inducing ext acc.1 (atoms.locEnv j) st.ediff).1])) acc).1.X =
        acc.1.X ++ extra := by
  intro l
  induction l with
  | nil =>
    intro acc
    refine ⟨by simp, rfl, [], by simp⟩
  | cons j l ih =>
    intro acc
    simp only [List.foldl_cons, List.filter_cons]
    by_cases hj : j ∈ first_of_each_atom_type atoms.numbers
    · rw [if_pos hj]
      obtain ⟨p1, p2, extra, p3⟩ := ih acc
      refine ⟨?_, p2, extra, p3⟩
      rw [p1]
      simp [hj]
    · rw [if_neg hj]
      obtain ⟨p1, p2, extra, p3⟩ :=
        ih ((add1inducing ext acc.1 (atoms.locEnv j) st.ediff).2,
          acc.2 ++ [Ev.add1 (atoms.locEnv j) st.ediff
            (add1inducing ext acc.1 (atoms.locEnv j) st.ediff).1])
      refine ⟨?_, ?_, ?_⟩
      · rw [p1]
        simp [hj, add1Proj]
      · rw [p2]
        exact add1inducing_data ext acc.1 (atoms.locEnv j) st.ediff
      · obtain ⟨e1, he1⟩ := add1inducing_X ext acc.1 (atoms.locEnv j) st.ediff
        exact ⟨e1 ++ extra, by rw [p3, he1, List.append_assoc]⟩

omit [LinearOrderedField α] in
theorem snapshot_no_add1 (ext : Ext α) (st : CalcState α) (atoms : Atoms α) (fake : Bool) :
    (snapshot ext st atoms fake).2.filterMap (add1Proj (α := α)) = [] := by
  unfold snapshot
  cases fake <;> simp [add1Proj]

theorem initiate_spec (ext : Ext α) (st : CalcState α) (atoms : Atoms α) :
    (initiate_model ext st atoms).1.data =
      [⟨atoms, (ext.exact atoms).1, (ext.exact atoms).2⟩] ∧
    (∃ extra, (initiate_model ext st atoms).1.X =
      (first_of_each_atom_type atoms.numbers).map atoms.locEnv ++ extra) ∧
    (initiate_model ext st atoms).2.filterMap add1Proj =
      ((List.range atoms.natoms).filter
        (fun j => ¬ j ∈ first_of_each_atom_type atoms.numbers)).map
        (fun j => (atoms.locEnv j, st.ediff)) := by
  obtain ⟨p1, p2, extra, p3⟩ :=
    initiate_fold_spec ext st atoms (List.range atoms.natoms)
      (setData ext [(snapshot ext st atoms false).1]
        ((first_of_each_atom_type atoms.numbers).map atoms.locEnv), [])
  refine ⟨?_, ⟨extra, ?_⟩, ?_⟩
  · show (initiate_model ext st atoms).1.data = _
    unfold initiate_model
    rw [p2]
    unfold snapshot setData
    simp
  · show (initiate_model ext st atoms).1.X = _
    unfold initiate_model
    rw [p3]
    rfl
  · show (initiate_model ext st atoms).2.filterMap add1Proj = _
    unfold initiate_model
    simp only [List.filterMap_append]
    rw [p1]
    rw [snapshot_no_add1]
    simp [add1Proj]

theorem calculate_results_step (ext : Ext α) (st : CalcState α) (atoms : Atoms α) :
    (calculate_results ext st atoms).1.step = st.step := rfl

theorem add_bias_step (ext : Ext α) (st : CalcState α) (atoms : Atoms α) :
    (add_bias ext st atoms).1.step = st.step := rfl

theorem update_inducing_step (sqrt : α → α) (ext : Ext α) (tiny : α) (st : CalcState α)
    (atoms : Atoms α) :
    ∀ st1 m evs, update_inducing sqrt ext tiny st atoms = some (st1, m, evs) →
      st1.step = st.step := by
  intro st1 m evs hout
  unfold update_inducing at hout
  rcases hrun : runLoop sqrt ext tiny st.ediff st.covdiff atoms (atoms.natoms + 3)
      (initLoop st) with _ | out
  · rw [hrun] at hout
    simp at hout
  · rw [hrun] at hout
    injection hout with hout
    injection hout with h1 h2
    rw [← h1]

omit [LinearOrderedField α] in
theorem update_data_step (ext : Ext α) (st : CalcState α) (atoms : Atoms α) (f : Bool) :
    (update_data ext st atoms f).1.step = st.step := by
  simp only [update_data]
  split
  · split <;> rfl
  · rfl

theorem update_step_eq (sqrt : α → α) (ext : Ext α) (tiny : α) (st : CalcState α)
    (atoms : Atoms α) :
    ∀ st1 m n evs, update sqrt ext tiny st atoms = some (st1, m, n, evs) →
      st1.step = st.step := by
  intro st1 m n evs heq
  unfold update at heq
  rcases hui : update_inducing sqrt ext tiny st atoms with _ | uo
  · rw [hui] at heq
    simp at heq
  · rw [hui] at heq
    simp only [Option.map] at heq
    rcases uo with ⟨stu, mu, evu⟩
    have hstep := update_inducing_step sqrt ext tiny st atoms stu mu evu hui
    split at heq
    · injection heq with heq
      injection heq with h1 h2
      rw [← h1, update_data_step, hstep]
    · injection heq with heq
      injection heq with h1 h2
      rw [← h1, hstep]

theorem initiate_fold_add1 (ext : Ext α) (st : CalcState α) (atoms : Atoms α) :
    ∀ (l : List ℕ) (acc : Model α × List (Ev α)),
      (∀ ev ∈ acc.2, ∃ lc t a, ev = Ev.add1 lc t a) →
      ∀ ev ∈ (l.foldl (fun acc j =>
          if j ∈ first_of_each_atom_type atoms.numbers then acc
          else
            ((add1inducing ext acc.1 (atoms.locEnv j) st.ediff).2,
              acc.2 ++ [Ev.add1 (atoms.locEnv j) st.ediff
                (add1inducing ext acc.1 (atoms.locEnv j) st.ediff).1])) acc).2,
        ∃ lc t a, ev = Ev.add1 lc t a := by
  intro l
  induction l with
  | nil => intro acc hacc ev hev; exact hacc ev hev
  | cons j l ih =>
    intro acc hacc ev hev
    simp only [List.foldl_cons] at hev
    refine ih _ ?_ ev hev
    split
    · exact hacc
    · intro ev1 hev1
      rcases List.mem_append.1 hev1 with h | h
      · exact hacc ev1 h
      · simp at h
        exact ⟨_, _, _, h⟩

theorem initiate_boot_count (ext : Ext α) (st : CalcState α) (atoms : Atoms α) :
    (initiate_model ext st atoms).2.countP
      (fun e => decide (e = Ev.bootstrap)) = 1 := by
  unfold initiate_model
  simp only [List.append_assoc, List.countP_append]
  have hsnap : (snapshot ext st atoms false).2.countP
      (fun e => decide (e = Ev.bootstrap)) = 0 := by
    unfold snapshot
    simp
  have hfold : (((List.range atoms.natoms).foldl (fun acc j =>
      if j ∈ first_of_each_atom_type atoms.numbers then acc
      else
        ((add1inducing ext acc.1 (atoms.locEnv j) st.ediff).2,
          acc.2 ++ [Ev.add1 (atoms.locEnv j) st.ediff
            (add1inducing ext acc.1 (atoms.locEnv j) st.ediff).1]))
      ((setData ext [(snapshot ext st atoms false).1]
          ((first_of_each_atom_type atoms.numbers).map atoms.locEnv), []) :
        Model α × List (Ev α))).2).countP
      (fun e => decide (e = Ev.bootstrap)) = 0 := by
    apply List.countP_eq_zero.2
    intro ev hev
    obtain ⟨lc, t, a, hshape⟩ := initiate_fold_add1 ext st atoms _ _
      (by intro ev1 hev1; simp at hev1) ev hev
    subst hshape
    simp
  rw [hsnap, hfold]
  simp

theorem initiate_boot_mem (ext : Ext α) (st : CalcState α) (atoms : Atoms α) :
    Ev.bootstrap ∈ (initiate_model ext st atoms).2 := by
  unfold initiate_model
  simp

theorem calculate_boot_spec (sqrt : α → α) (ext : Ext α) (tiny : α) (st : CalcState α)
    (atoms : Atoms α) (h0 : st.step = 0) (hd : st.model.data.length = 0) :
    ∃ st1 evs, calculate sqrt ext tiny st atoms = some (st1, evs) ∧
      st1.model = (initiate_model ext st atoms).1 ∧
      st1.step = st.step + 1 ∧
      ∃ tail, evs = (initiate_model ext st atoms).2 ++ tail ∧
        ∀ ev ∈ tail, (∃ r rl x, ev = Ev.compute r rl x) ∨ ev = Ev.allReduce := by
  have hcond : st.step = 0 ∧ st.model.data.length = 0 := ⟨h0, hd⟩
  rcases hc : calculate sqrt ext tiny st atoms with _ | ⟨st1, evs⟩
  · exfalso
    simp only [calculate] at hc
    rw [if_pos hcond] at hc
    simp at hc
  · refine ⟨st1, evs, rfl, ?_⟩
    simp only [calculate] at hc
    rw [if_pos hcond] at hc
    simp only [Option.map_some] at hc
    injection hc with hc
    injection hc with hst hevs
    dsimp only at hst hevs
    simp only [lt_self_iff_false, or_self, if_false] at hst hevs
    rw [calculate_results_bias] at hst hevs
    dsimp only at hst hevs
    rcases hbias : st.bias with _ | b
    · rw [hbias] at hst hevs
      dsimp only at hst hevs
      simp only [List.append_nil, List.append_assoc] at hevs
      refine ⟨by rw [← hst]; rfl, by rw [← hst]; rfl, _, hevs.symm, ?_⟩
      intro ev hev
      rcases calculate_results_events ext _ atoms ev hev with h1 | h1
      · exact Or.inl ⟨_, _, _, h1⟩
      · exact Or.inr h1
    · rw [hbias] at hst hevs
      dsimp only at hst hevs
      simp only [List.append_nil, List.append_assoc] at hevs
      refine ⟨by rw [← hst]; rfl, by rw [← hst]; rfl, _, hevs.symm, ?_⟩
      intro ev hev
      rcases List.mem_append.1 hev with h | h
      · rcases calculate_results_events ext _ atoms ev h with h1 | h1
        · exact Or.inl ⟨_, _, _, h1⟩
        · exact Or.inr h1
      · rcases add_bias_events ext _ atoms ev h with h1 | h1
        · exact Or.inl ⟨_, _, _, h1⟩
        · exact Or.inr h1

theorem calculate_step_shape (sqrt : α → α) (ext : Ext α) (tiny : α) (st : CalcState α)
    (atoms : Atoms α) :
    ∀ st1 evs, calculate sqrt ext tiny st atoms = some (st1, evs) →
      st1.step = st.step + 1 ∧
      (¬ (st.step = 0 ∧ st.model.data.length = 0) → ∀ ev ∈ evs, ev ≠ Ev.bootstrap) := by
  intro st1 evs heq
  simp only [calculate] at heq
  split at heq
  · rename_i hcnd
    simp only [Option.map_some] at heq
    injection heq with heq
    injection heq with hst hevs
    dsimp only at hst
    simp only [lt_self_iff_false, or_self, if_false] at hst
    rw [calculate_results_bias] at hst
    dsimp only at hst
    refine ⟨?_, fun hn => absurd hcnd hn⟩
    rcases hbias : st.bias with _ | b
    · rw [hbias] at hst
      dsimp only at hst
      rw [← hst]
      rfl
    · rw [hbias] at hst
      dsimp only at hst
      rw [← hst]
      rfl
  · rename_i hcnd
    rcases hupd : update sqrt ext tiny
        (calculate_results ext
          { st with cov := kernMatrix ext atoms st.model.X } atoms).1 atoms
      with _ | out
    · rw [hupd] at heq
      simp at heq
    · rw [hupd] at heq
      simp only [Option.map] at heq
      injection heq with h1
      injection h1 with hst hevs
      rcases out with ⟨outst, m, n, uevs⟩
      dsimp only at hst hevs
      have hostep : outst.step = st.step :=
        update_step_eq sqrt ext tiny
          (calculate_results ext
            { st with cov := kernMatrix ext atoms st.model.X } atoms).1
          atoms outst m n uevs hupd
      obtain ⟨-, huevs⟩ := update_shape sqrt ext tiny _ atoms outst m n uevs hupd
      have hr1 : ∀ (st0 : CalcState α) ev,
          ev ∈ (calculate_results ext st0 atoms).2.2 → ev ≠ Ev.bootstrap := by
        intro st0 ev h
        rcases calculate_results_events ext st0 atoms ev h with h1 | h1 <;> subst h1 <;> simp
      have hbb : ∀ (st0 : CalcState α) ev,
          ev ∈ (add_bias ext st0 atoms).2.2 → ev ≠ Ev.bootstrap := by
        intro st0 ev h
        rcases add_bias_events ext st0 atoms ev h with h1 | h1 <;> subst h1 <;> simp
      have huu : ∀ ev ∈ uevs, ev ≠ Ev.bootstrap := by
        intro ev h
        rcases huevs ev h with h1 | ⟨l, h1⟩ | ⟨l, t, a, h1⟩ | h1 | h1 | h1 | ⟨fa, e, h1⟩ <;>
          subst h1 <;> simp
      constructor
      · by_cases hmn : 0 < m ∨ 0 < n
        · rw [if_pos hmn, calculate_results_bias] at hst
          dsimp only at hst
          rcases hb : outst.bias with _ | b
          · rw [hb] at hst
            dsimp only at hst
            rw [← hst, calculate_results_step, hostep]
          · rw [hb] at hst
            dsimp only at hst
            rw [← hst, add_bias_step, calculate_results_step, hostep]
        · rw [if_neg hmn] at hst
          dsimp only at hst
          rcases hb : outst.bias with _ | b
          · rw [hb] at hst
            dsimp only at hst
            rw [← hst, hostep]
          · rw [hb] at hst
            dsimp only at hst
            rw [← hst, add_bias_step, hostep]
      · intro _ ev hev
        rw [← hevs] at hev
        by_cases hmn : 0 < m ∨ 0 < n
        · rw [if_pos hmn, calculate_results_bias] at hev
          dsimp only at hev
          rcases hb : outst.bias with _ | b <;> rw [hb] at hev <;> dsimp only at hev
          · simp only [List.nil_append, List.append_nil, List.mem_append,
              List.mem_cons] at hev
            rcases hev with (h | h | h) | h
            · exact hr1 _ ev h
            · subst h; simp
            · exact huu ev h
            · exact hr1 _ ev h
          · simp only [List.nil_append, List.mem_append, List.mem_cons] at hev
            rcases hev with ((h | h | h) | h) | h
            · exact hr1 _ ev h
            · subst h; simp
            · exact huu ev h
            · exact hr1 _ ev h
            · exact hbb _ ev h
        · rw [if_neg hmn] at hev
          dsimp only at hev
          rcases hb : outst.bias with _ | b <;> rw [hb] at hev <;> dsimp only at hev
          · simp only [List.nil_append, List.append_nil, List.mem_append,
              List.mem_cons] at hev
            rcases hev with h | h | h
            · exact hr1 _ ev h
            · subst h; simp
            · exact huu ev h
          · simp only [List.nil_append, List.append_nil, List.mem_append,
              List.mem_cons] at hev
            rcases hev with (h | h | h) | h
            · exact hr1 _ ev h
            · subst h; simp
            · exact huu ev h
            · exact hbb _ ev h

theorem runCalcs_no_boot (sqrt : α → α) (ext : Ext α) (tiny : α) :
    ∀ (confs : List (Atoms α)) (st : CalcState α) (final : CalcState α)
      (tevs : List (Ev α)), st.step ≠ 0 →
      runCalcs sqrt ext tiny st confs = some (final, tevs) →
      ∀ ev ∈ tevs, ev ≠ Ev.bootstrap := by
  intro confs
  induction confs with
  | nil =>
    intro st final tevs hne hrun
    simp only [runCalcs] at hrun
    injection hrun with hrun
    injection hrun with h1 h2
    rw [← h2]
    simp
  | cons a rest ih =>
    intro st final tevs hne hrun
    simp only [runCalcs] at hrun
    rcases hcal : calculate sqrt ext tiny st a with _ | ⟨st1, evs⟩
    · rw [hcal] at hrun
      dsimp only at hrun
      exact Option.noConfusion hrun
    · rw [hcal] at hrun
      dsimp only at hrun
      rcases hrest : runCalcs sqrt ext tiny st1 rest with _ | ⟨f2, t2⟩
      · rw [hrest] at hrun
        exact Option.noConfusion hrun
      · rw [hrest] at hrun
        simp only [Option.map] at hrun
        injection hrun with hrun
        injection hrun with h1 h2
        obtain ⟨hstep, hnb⟩ := calculate_step_shape sqrt ext tiny st a st1 evs hcal
        intro ev hev
        rw [← h2] at hev
        rcases List.mem_append.1 hev with h | h
        · exact hnb (fun hc => hne hc.1) ev h
        · exact ih st1 f2 t2 (by rw [hstep]; simp) hrest ev h

/-- C5.  On the very first step with a model holding zero training
configurations, `calculate` bootstraps: it seeds the training set with
exactly the whole true-labeled first configuration, seeds the inducing set
with the representative environments of `first_of_each_atom_type` (one per
distinct species: their species are pairwise distinct and cover every
species present), attempts the energy-sensitivity add for exactly the
remaining atoms, skips the selector round, advances the step counter, and
over any run starting from this state the bootstrap event fires exactly
once. -/
theorem c5_bootstrap (sqrt : α → α) (ext : Ext α) (tiny : α) (st : CalcState α)
    (atoms : Atoms α) (h0 : st.step = 0) (hd : st.model.data = []) :
    ∃ st1 evs, calculate sqrt ext tiny st atoms = some (st1, evs) ∧
      st1.model.data = [⟨atoms, (ext.exact atoms).1, (ext.exact atoms).2⟩] ∧
      (∃ extra, st1.model.X =
        (first_of_each_atom_type atoms.numbers).map atoms.locEnv ++ extra) ∧
      (∀ j1 ∈ first_of_each_atom_type atoms.numbers,
        ∀ j2 ∈ first_of_each_atom_type atoms.numbers,
          atoms.numbers.getD j1 0 = atoms.numbers.getD j2 0 → j1 = j2) ∧
      (∀ z ∈ atoms.numbers, ∃ j ∈ first_of_each_atom_type atoms.numbers,
        atoms.numbers.getD j 0 = z) ∧
      evs.filterMap add1Proj =
        ((List.range atoms.natoms).filter
          (fun j => ¬ j ∈ first_of_each_atom_type atoms.numbers)).map
          (fun j => (atoms.locEnv j, st.ediff)) ∧
      Ev.selector ∉ evs ∧
      Ev.bootstrap ∈ evs ∧
      st1.step = st.step + 1 ∧
      ∀ rest final tevs, runCalcs sqrt ext tiny st (atoms :: rest) = some (final, tevs) →
        tevs.countP (fun e => decide (e = Ev.bootstrap)) = 1 := by
  obtain ⟨st1, evs, hc, hmod, hstep, tail, hevs, htail⟩ :=
    calculate_boot_spec sqrt ext tiny st atoms h0 (by rw [hd]; rfl)
  obtain ⟨hdata, hXpre, hproj⟩ := initiate_spec ext st atoms
  have htailP : ∀ (p : Ev α → Bool), (∀ r rl x, p (Ev.compute r rl x) = false) →
      p Ev.allReduce = false → tail.countP p = 0 := by
    intro p hp1 hp2
    apply List.countP_eq_zero.2
    intro ev hev
    rcases htail ev hev with ⟨r, rl, x, h1⟩ | h1 <;> subst h1 <;> simp [hp1, hp2]
  have hcount : evs.countP (fun e => decide (e = Ev.bootstrap)) = 1 := by
    rw [hevs, List.countP_append, initiate_boot_count,
      htailP _ (by intro r rl x; simp) (by simp)]
  refine ⟨st1, evs, hc, ?_, ?_, foea_inj, foea_cover, ?_, ?_, ?_, hstep, ?_⟩
  · rw [hmod, hdata]
  · rw [hmod]
    exact hXpre
  · rw [hevs, List.filterMap_append, hproj]
    have : tail.filterMap add1Proj = [] := by
      apply List.filterMap_eq_nil_iff.2
      intro ev hev
      rcases htail ev hev with ⟨r, rl, x, h1⟩ | h1 <;> subst h1 <;> rfl
    rw [this, List.append_nil]
  · rw [hevs]
    intro hmem
    rcases List.mem_append.1 hmem with h | h
    · rcases initiate_events ext st atoms _ h with h1 | h1 | ⟨fa, e, h1⟩ | ⟨l, t, a, h1⟩ <;>
        simp at h1
    · rcases htail _ h with ⟨r, rl, x, h1⟩ | h1 <;> simp at h1
  · rw [hevs]
    exact List.mem_append.2 (Or.inl (initiate_boot_mem ext st atoms))
  · intro rest final tevs hrun
    simp only [runCalcs] at hrun
    rw [hc] at hrun
    dsimp only at hrun
    rcases hrest : runCalcs sqrt ext tiny st1 rest with _ | ⟨f2, t2⟩
    · rw [hrest] at hrun
      exact Option.noConfusion hrun
    · rw [hrest] at hrun
      simp only [Option.map] at hrun
      injection hrun with hrun
      injection hrun with h1 h2
      have ht2 : t2.countP (fun e => decide (e = Ev.bootstrap)) = 0 := by
        apply List.countP_eq_zero.2
        intro ev hev
        have := runCalcs_no_boot sqrt ext tiny rest st1 f2 t2
          (by rw [hstep]; simp) hrest ev hev
        simp [this]
      rw [← h2, List.countP_append, hcount, ht2]

/-! ### C6: training-set growth -/

omit [LinearOrderedField α] in
theorem snapshot_atoms (ext : Ext α) (st : CalcState α) (atoms : Atoms α) (f : Bool) :
    (snapshot ext st atoms f).1.atoms = atoms := by
  unfold snapshot
  cases f <;> rfl

omit [LinearOrderedField α] in
theorem add1atoms_accept {ext : Ext α} {m : Model α} {conf : Conf α} {e f : α}
    (h : ext.acceptData m conf e f = true) :
    add1atoms ext m conf e f =
      ⟨m.X, m.data ++ [conf], ext.refit m.X (m.data ++ [conf])⟩ := by
  unfold add1atoms
  rw [if_pos h]

omit [LinearOrderedField α] in
theorem add1atoms_reject {ext : Ext α} {m : Model α} {conf : Conf α} {e f : α}
    (h : ext.acceptData m conf e f = false) :
    add1atoms ext m conf e f = m := by
  unfold add1atoms
  rw [if_neg]
  simp [h]

omit [LinearOrderedField α] in
theorem head_concat (ext : Ext α) (X : List Loc) (d : List (Conf α)) (c : Conf α)
    (mats : MatState α) :
    head ext ⟨X, d ++ [c], mats⟩ =
      (makeMunu ext
        ⟨X, d ++ [⟨c.atoms, (ext.exact c.atoms).1, (ext.exact c.atoms).2⟩], mats⟩,
        [Ev.fetchExact, Ev.overwrite, Ev.makeMunu]) := by
  unfold head
  dsimp only
  rw [List.getLast?_concat]
  dsimp only
  rw [List.dropLast_concat]

omit [LinearOrderedField α] in
theorem update_data_full (ext : Ext α) (st : CalcState α) (atoms : Atoms α) (f : Bool) :
    ∀ st1 n evs, update_data ext st atoms f = (st1, n, evs) →
      st1.blind = st.blind ∧
      (∃ tailEvs, evs = (snapshot ext st atoms f).2 ++ tailEvs ∧
        ∀ fa e, Ev.snapshot fa e ∉ tailEvs) ∧
      (n = 0 → st1.model.data = st.model.data) ∧
      (0 < n → f = true →
        st1.model.data =
          st.model.data ++ [⟨atoms, (ext.exact atoms).1, (ext.exact atoms).2⟩] ∧
        st1.model.mats = ext.refit st1.model.X st1.model.data ∧
        evs = (snapshot ext st atoms f).2 ++
          [Ev.fetchExact, Ev.overwrite, Ev.makeMunu]) := by
  intro st1 n evs heq
  simp only [update_data] at heq
  rcases hacc : ext.acceptData st.model (snapshot ext st atoms f).1 st.ediff st.fdiff
    with _ | _
  · rw [add1atoms_reject hacc] at heq
    simp only [Nat.sub_self, lt_self_iff_false, if_false] at heq
    injection heq with h1 h2
    injection h2 with h2 h3
    refine ⟨by rw [← h1], ⟨[], by rw [← h3]; simp, by simp⟩, ?_, ?_⟩
    · intro _
      rw [← h1]
    · intro hn _
      rw [← h2] at hn
      exact absurd hn (lt_irrefl 0)
  · rw [add1atoms_accept hacc] at heq
    split at heq
    · rename_i hadd
      split at heq
      · rename_i hf
        rw [head_concat] at heq
        injection heq with h1 h2
        injection h2 with h2 h3
        refine ⟨by rw [← h1],
          ⟨[Ev.fetchExact, Ev.overwrite, Ev.makeMunu], by rw [← h3],
            by intro fa e h; simp at h⟩, ?_, ?_⟩
        · intro hn0
          rw [← h2] at hn0
          rw [hn0] at hadd
          exact absurd hadd (lt_irrefl 0)
        · intro _ _
          refine ⟨?_, ?_, by rw [← h3]⟩
          · rw [← h1]
            show (makeMunu ext _).data = _
            simp only [makeMunu]
            rw [snapshot_atoms]
          · rw [← h1]
            rfl
      · rename_i hf
        injection heq with h1 h2
        injection h2 with h2 h3
        refine ⟨by rw [← h1], ⟨[], by rw [← h3]; simp, by simp⟩, ?_, ?_⟩
        · intro hn0
          rw [← h2] at hn0
          rw [hn0] at hadd
          exact absurd hadd (lt_irrefl 0)
        · intro _ hf2
          exact absurd hf2 hf
    · rename_i hadd
      exfalso
      apply hadd
      simp only [List.length_append, List.length_cons, List.length_nil]
      omega

/-- C6.  Training-set growth is attempted only in rounds where the inducing
set grew (no snapshot is submitted and the training set is unchanged
otherwise); the snapshot submitted to the model is true-labeled by the
reference calculator exactly when the round was flagged blind, and
otherwise fake-labeled with the calculator's current energy prediction; and
an accepted fake-labeled snapshot is promoted: the stored configuration
carries the true reference labels and the model's matrices are refit, with
the fetch/overwrite happening before the mean/weight recomputation in the
event trace. -/
theorem c6_training_growth (sqrt : α → α) (ext : Ext α) (tiny : α) (st : CalcState α)
    (atoms : Atoms α) :
    ∀ st1 m n evs, update sqrt ext tiny st atoms = some (st1, m, n, evs) →
      (m = 0 → n = 0 ∧ st1.model.data = st.model.data ∧
        ∀ fa e, Ev.snapshot fa e ∉ evs) ∧
      (∀ fa e, Ev.snapshot fa e ∈ evs →
        fa = ! st1.blind ∧
        e = if st1.blind = true then (ext.exact atoms).1 else st.results_energy) ∧
      (0 < m → ∃ fa e, Ev.snapshot fa e ∈ evs) ∧
      (0 < m → st1.blind = false → 0 < n →
        st1.model.data = st.model.data ++
          [⟨atoms, (ext.exact atoms).1, (ext.exact atoms).2⟩] ∧
        st1.model.mats = ext.refit st1.model.X st1.model.data ∧
        ∃ evsL, evs = evsL ++
          [Ev.snapshot true st.results_energy, Ev.fetchExact, Ev.overwrite,
            Ev.makeMunu] ∧
          ∀ fa e, Ev.snapshot fa e ∉ evsL) := by
  intro st1 m n evs heq
  unfold update at heq
  rcases hui : update_inducing sqrt ext tiny st atoms with _ | uo
  · rw [hui] at heq
    simp at heq
  · rw [hui] at heq
    simp only [Option.map] at heq
    rcases uo with ⟨stu, mu, evu⟩
    dsimp only at heq
    obtain ⟨-, hdata, hre, -, -, -, -, -, hevu⟩ :=
      update_inducing_shape sqrt ext tiny st atoms stu mu evu hui
    have hublind := update_inducing_step sqrt ext tiny st atoms stu mu evu hui
    have hnosnap_u : ∀ fa e, Ev.snapshot fa e ∉ evu := by
      intro fa e hmem
      rcases hevu _ hmem with h | ⟨l, h⟩ | ⟨l, t, a, h⟩ <;> simp at h
    split at heq
    · rename_i hmu
      injection heq with heq
      injection heq with h1 heq
      injection heq with h2 heq
      injection heq with h3 h4
      obtain ⟨hblind, ⟨tailEvs, htail, htailno⟩, hzero, hpos⟩ :=
        update_data_full ext stu atoms (! stu.blind)
          (update_data ext stu atoms (! stu.blind)).1
          (update_data ext stu atoms (! stu.blind)).2.1
          (update_data ext stu atoms (! stu.blind)).2.2 rfl
      have hblind1 : st1.blind = stu.blind := by
        rw [← h1]
        exact hblind
      refine ⟨?_, ?_, ?_, ?_⟩
      · intro h0
        rw [h2, h0] at hmu
        exact absurd hmu (lt_irrefl 0)
      · intro fa e hmem
        rw [← h4] at hmem
        rcases List.mem_append.1 hmem with h | h
        · exact absurd h (hnosnap_u fa e)
        · rw [htail] at h
          rcases List.mem_append.1 h with h | h
          · cases hb : stu.blind
            · rw [hb] at h
              simp only [Bool.not_false] at h
              simp only [snapshot, if_true, List.mem_cons, List.not_mem_nil, or_false,
                Ev.snapshot.injEq] at h
              obtain ⟨hfa, he⟩ := h
              rw [hblind1, hb]
              exact ⟨by rw [hfa, Bool.not_false], by rw [if_neg (by simp), he, hre]⟩
            · rw [hb] at h
              simp only [Bool.not_true] at h
              simp only [snapshot, Bool.false_eq_true, if_false, List.mem_cons,
                List.not_mem_nil, or_false, Ev.snapshot.injEq, reduceCtorEq,
                false_or] at h
              obtain ⟨hfa, he⟩ := h
              rw [hblind1, hb]
              exact ⟨by rw [hfa, Bool.not_true], by rw [if_pos rfl, he]⟩
          · exact absurd h (htailno fa e)
      · intro _
        cases hb : stu.blind
        · refine ⟨true, stu.results_energy, ?_⟩
          rw [← h4, htail, hb]
          simp only [Bool.not_false, snapshot]
          simp
        · refine ⟨false, (ext.exact atoms).1, ?_⟩
          rw [← h4, htail, hb]
          simp only [Bool.not_true, snapshot]
          simp
      · intro hm hbl hn
        have hb : stu.blind = false := by rw [← hblind1]; exact hbl
        have hf : (! stu.blind) = true := by rw [hb]; rfl
        rw [← h3] at hn
        obtain ⟨hd, hm2, hevs2⟩ := hpos hn hf
        refine ⟨?_, ?_, evu, ?_, hnosnap_u⟩
        · rw [← h1, hd, hdata]
        · rw [← h1]
          exact hm2
        · rw [← h4, hevs2, hb]
          simp only [Bool.not_false, snapshot]
          rw [hre]
          simp
    · rename_i hmu
      injection heq with heq
      injection heq with h1 heq
      injection heq with h2 heq
      injection heq with h3 h4
      refine ⟨?_, ?_, ?_, ?_⟩
      · exact fun _ => ⟨h3.symm, by rw [← h1, hdata], by rw [← h4]; exact hnosnap_u⟩
      · intro fa e hmem
        rw [← h4] at hmem
        exact absurd hmem (hnosnap_u fa e)
      · intro h
        rw [← h2] at h
        exact absurd h hmu
      · intro _ _ hn
        rw [← h3] at hn
        exact absurd hn (lt_irrefl 0)

/-- The calculator state after one update round on the one-atom instance:
one inducing point added by the loop, one fake-labeled snapshot accepted
and promoted. -/
def c6st : CalcState ℚ where
  model := ⟨[⟨1, 0⟩, ⟨1, 0⟩], [⟨atomsQ, 0, []⟩], ⟨[[1]], [[1]], [1]⟩⟩
  cov := [[1, 1]]
  normalized := some true
  bias_pot := none
  ediff := 1
  fdiff := 1
  covdiff := -1
  bias := some 1
  step := 1
  blind := false
  results_energy := 0
  results_forces := [[0, 0, 0]]
  results_stress := [0, 0, 0, 0, 0, 0]

/-- The event trace of that update round. -/
def c6evs : List (Ev ℚ) :=
  [Ev.addInducing ⟨1, 0⟩, Ev.snapshot true 0, Ev.fetchExact, Ev.overwrite,
    Ev.makeMunu]

/-- C6 witness: a concrete non-blind round where the inducing set grows,
the snapshot is fake-labeled with the current prediction, accepted, and
promoted before the matrices are refit. -/
theorem c6_training_growth_witness :
    update id extQ 1 stW atomsQ = some (c6st, 1, 1, c6evs) ∧
    ((1 = 0 → 1 = 0 ∧ c6st.model.data = stW.model.data ∧
        ∀ fa e, Ev.snapshot fa e ∉ c6evs) ∧
      (∀ fa e, Ev.snapshot fa e ∈ c6evs →
        fa = ! c6st.blind ∧
        e = if c6st.blind = true then (extQ.exact atomsQ).1
          else stW.results_energy) ∧
      (0 < 1 → ∃ fa e, Ev.snapshot fa e ∈ c6evs) ∧
      (0 < 1 → c6st.blind = false → 0 < 1 →
        c6st.model.data = stW.model.data ++
          [⟨atomsQ, (extQ.exact atomsQ).1, (extQ.exact atomsQ).2⟩] ∧
        c6st.model.mats = extQ.refit c6st.model.X c6st.model.data ∧
        ∃ evsL, c6evs = evsL ++
          [Ev.snapshot true stW.results_energy, Ev.fetchExact, Ev.overwrite,
            Ev.makeMunu] ∧
          ∀ fa e, Ev.snapshot fa e ∉ evsL)) := by
  have hupd : update id extQ 1 stW atomsQ = some (c6st, 1, 1, c6evs) := by
    norm_num [update, update_inducing, runLoop, initLoop, loopStep, loopMark,
      loopPick, loopBeta, loopEdiff, get_covloss, covloss_c, dot, argsortDesc,
      pickK, List.insertionSort, List.orderedInsert, isclose, allclose,
      selfAlpha, addInducing, add1inducing, appendCol, update_data, snapshot,
      add1atoms, head, makeMunu, Atoms.locEnv, Atoms.natoms, extQ, atomsQ, stW,
      stQ, c6st, c6evs]
  exact ⟨hupd, c6_training_growth id extQ 1 stW atomsQ c6st 1 1 c6evs hupd⟩

/-- C5 witness: the bootstrap contract evaluated on the 7-atom, 2-species
configuration from a fresh calculator state. -/
theorem c5_bootstrap_witness :
    ∃ st1 evs, calculate (fun x : ℚ => x) extQ 0 stF atoms7 = some (st1, evs) ∧
      st1.model.data = [⟨atoms7, (extQ.exact atoms7).1, (extQ.exact atoms7).2⟩] ∧
      (∃ extra, st1.model.X =
        (first_of_each_atom_type atoms7.numbers).map atoms7.locEnv ++ extra) ∧
      (∀ j1 ∈ first_of_each_atom_type atoms7.numbers,
        ∀ j2 ∈ first_of_each_atom_type atoms7.numbers,
          atoms7.numbers.getD j1 0 = atoms7.numbers.getD j2 0 → j1 = j2) ∧
      (∀ z ∈ atoms7.numbers, ∃ j ∈ first_of_each_atom_type atoms7.numbers,
        atoms7.numbers.getD j 0 = z) ∧
      evs.filterMap add1Proj =
        ((List.range atoms7.natoms).filter
          (fun j => ¬ j ∈ first_of_each_atom_type atoms7.numbers)).map
          (fun j => (atoms7.locEnv j, stF.ediff)) ∧
      Ev.selector ∉ evs ∧
      Ev.bootstrap ∈ evs ∧
      st1.step = stF.step + 1 ∧
      ∀ rest final tevs,
        runCalcs (fun x : ℚ => x) extQ 0 stF (atoms7 :: rest) = some (final, tevs) →
        tevs.countP (fun e => decide (e = Ev.bootstrap)) = 1 :=
  c5_bootstrap (fun x : ℚ => x) extQ 0 stF atoms7 rfl rfl

end TheForce
